import Mathlib

/-!
Verification of the SWC record normalizer (`src/swcio.cpp`), the morphology
tree constructor, and the `mc_cell_group` advance engine of this repository,
shallowly embedded in Lean.  Machine floats (`time_type`, coordinates, radii)
are modelled by `ℚ`; only order comparisons on them occur in the modelled code.
-/

namespace NestMc

/-! ## SWC records (`src/swcio.cpp`) -/

/-- One SWC node record (`cell_record` in `swcio.hpp`).  `type` carries the
underlying integer of the `kind` enum; coordinates and radius, floats in the
source, are modelled by `ℚ`. -/
structure cell_record where
  type : Int
  id : Int
  x : ℚ
  y : ℚ
  z : ℚ
  r : ℚ
  parent_id : Int
deriving DecidableEq, Repr, Inhabited

/-- Modelled from the spec: the last enumerator of the record-type enumeration
`undefined/soma/axon/dendrite/apical-dendrite/fork-point/end-point/custom`
(the enum lives in `swcio.hpp`, which is not under `src/`). -/
def kind_custom : Int := 7

/-- `cell_record::check_consistency` of `swcio.cpp`: throwing
`std::invalid_argument` is modelled by `Except.error` with the same message. -/
def cell_record.check_consistency (c : cell_record) : Except String Unit :=
  if c.type < 0 ∨ c.type > kind_custom then .error "unknown cell type"
  else if c.id < 0 then .error "negative ids not allowed"
  else if c.parent_id < -1 then .error "parent_id < -1 not allowed"
  else if c.parent_id ≥ c.id then .error "parent_id >= id is not allowed"
  else if c.r < 0 then .error "negative radii are not allowed"
  else .ok ()

/-- `std::map<id_type,id_type>::find`, on the association-list model of the
id map (keys are pairwise distinct in every use below). -/
def lookupAL : List (Int × Int) → Int → Option Int
  | [], _ => none
  | (k, v) :: rest, p => if p = k then some v else lookupAL rest p

/-- `cell_record::renumber` of `swcio.cpp`: set the id to `new_id`, rewrite the
parent through the map when present, re-check consistency, then record
`old_id ↦ new_id` in the map. -/
def cell_record.renumber (c : cell_record) (new_id : Int)
    (idmap : List (Int × Int)) : Except String (cell_record × List (Int × Int)) :=
  let old_id := c.id
  let c1 : cell_record := { c with id := new_id }
  let c2 : cell_record :=
    match lookupAL idmap c1.parent_id with
    | some p => { c1 with parent_id := p }
    | none => c1
  match c2.check_consistency with
  | .error e => .error e
  | .ok _ => .ok (c2, (old_id, new_id) :: idmap)

/-! ### `cell_record_range_clean` construction

The constructor has three phases: a collection loop (drop duplicate ids, stop
at a second root), an optional sort by id, and a renumbering pass. -/

/-- The collection loop of `cell_record_range_clean::cell_record_range_clean`.
State: `seen` models the `unordered_set` of ids, `numTrees`/`lastId`/`ns`
model `num_trees`/`last_id`/`needsort`.  Returns the collected cells and the
final `needsort` flag. -/
def collectAux : List cell_record → List Int → Nat → Int → Bool →
    List cell_record × Bool
  | [], _, _, _, ns => ([], ns)
  | c :: rest, seen, numTrees, lastId, ns =>
    -- `if (c.parent() == -1 && ++num_trees > 1) break;`
    if c.parent_id = -1 ∧ 1 ≤ numTrees then ([], ns)
    else
      let numTrees' := if c.parent_id = -1 then numTrees + 1 else numTrees
      if c.id ∈ seen then collectAux rest seen numTrees' lastId ns
      else
        let (cs, ns') :=
          collectAux rest (c.id :: seen) numTrees' c.id (ns || decide (c.id < lastId))
        (c :: cs, ns')

/-- Insert a record into a list sorted by id (`operator<` on `cell_record`
compares ids, per the spec: "Sort by original id"). -/
def insertById (c : cell_record) : List cell_record → List cell_record
  | [] => [c]
  | d :: rest => if c.id ≤ d.id then c :: d :: rest else d :: insertById c rest

/-- `std::sort` over `cell_record`s ordered by id; on the pairwise-distinct ids
arising below any comparison sort yields this result. -/
def sortById : List cell_record → List cell_record
  | [] => []
  | c :: rest => insertById c (sortById rest)

/-- The renumbering loop of the constructor: walk the cells with a running
`next_id`, renumbering any cell whose id differs from it. -/
def renumber_range : List cell_record → Int → List (Int × Int) →
    Except String (List cell_record)
  | [], _, _ => .ok []
  | c :: rest, next_id, idmap =>
    if c.id ≠ next_id then
      match c.renumber next_id idmap with
      | .error e => .error e
      | .ok (c', idmap') =>
        match renumber_range rest (next_id + 1) idmap' with
        | .error e => .error e
        | .ok out => .ok (c' :: out)
    else
      match renumber_range rest (next_id + 1) idmap with
      | .error e => .error e
      | .ok out => .ok (c :: out)

/-- The cells held after the collection loop and the conditional sort. -/
def retainedRecords (rs : List cell_record) : List cell_record :=
  let (cs, ns) := collectAux rs [] 0 (-1) false
  if ns then sortById cs else cs

/-- `cell_record_range_clean::cell_record_range_clean`, on an already-parsed
record sequence: collect, sort if needed, renumber. -/
def cell_record_range_clean (rs : List cell_record) :
    Except String (List cell_record) :=
  renumber_range (retainedRecords rs) 0 []

/-! ### Spec-side characterizations of the collection phase -/

/-- The prefix of the input strictly before a second root record, `nt` roots
having been seen already (spec-side characterization used by the amended C1). -/
def roots_front : Nat → List cell_record → List cell_record
  | _, [] => []
  | nt, c :: rest =>
    if c.parent_id = -1 ∧ 1 ≤ nt then []
    else c :: roots_front (if c.parent_id = -1 then nt + 1 else nt) rest

/-- First-occurrence deduplication by id, given an initial set of seen ids
(spec-side characterization of the duplicate rule). -/
def dedup_by (seen : List Int) : List cell_record → List cell_record
  | [] => []
  | c :: rest =>
    if c.id ∈ seen then dedup_by seen rest
    else c :: dedup_by (c.id :: seen) rest

/-- The collection loop keeps exactly the first occurrences of the records
that precede a second root, whatever the sorting state. -/
theorem collectAux_fst_eq (rs : List cell_record) :
    ∀ seen numTrees lastId ns,
      (collectAux rs seen numTrees lastId ns).1 =
        dedup_by seen (roots_front numTrees rs) := by
  induction rs with
  | nil => intro seen numTrees lastId ns; rfl
  | cons c rest ih =>
    intro seen numTrees lastId ns
    simp only [collectAux, roots_front]
    by_cases hbrk : c.parent_id = -1 ∧ 1 ≤ numTrees
    · simp [hbrk, dedup_by]
    · by_cases hdup : c.id ∈ seen
      · simp [hbrk, hdup, dedup_by, ih]
      · simp [hbrk, hdup, dedup_by, ih]

/-! ## Theorems on record validation (C6) -/

/-- `check_consistency` succeeds exactly on in-range records (shared helper). -/
theorem check_ok_iff (c : cell_record) :
    c.check_consistency = .ok () ↔
      (0 ≤ c.type ∧ c.type ≤ kind_custom ∧ 0 ≤ c.id ∧ -1 ≤ c.parent_id ∧
        c.parent_id < c.id ∧ 0 ≤ c.r) := by
  simp only [cell_record.check_consistency, kind_custom]
  split_ifs with h1 h2 h3 h4 h5
  · exact ⟨fun h => by simp at h, fun h => by exfalso; omega⟩
  · exact ⟨fun h => by simp at h, fun h => by exfalso; omega⟩
  · exact ⟨fun h => by simp at h, fun h => by exfalso; omega⟩
  · exact ⟨fun h => by simp at h, fun h => by exfalso; omega⟩
  · exact ⟨fun h => by simp at h, fun h => absurd h.2.2.2.2.2 (not_le.mpr h5)⟩
  · refine ⟨fun _ => ⟨by omega, by omega, by omega, by omega, by omega, ?_⟩,
      fun _ => rfl⟩
    exact le_of_not_lt h5

/-- C6: `check_consistency` raises an invalid-structure error exactly when the
type code is outside the enumeration range, or the id is negative, or the
parent id is less than −1, or the parent id is at least the own id, or the
radius is negative; otherwise it returns without error. -/
theorem check_consistency_error_iff (c : cell_record) :
    c.check_consistency ≠ .ok () ↔
      (c.type < 0 ∨ kind_custom < c.type ∨ c.id < 0 ∨ c.parent_id < -1 ∨
        c.id ≤ c.parent_id ∨ c.r < 0) := by
  rw [Ne, check_ok_iff]
  simp only [not_and_or, not_le, not_lt]

/-! ## C1: multiple trees in the input -/

/-- C1 counterexample: input `[root₀, root₁, child-of-root₀]`.  The collection
loop breaks at the second root, so the first tree's child record (parent id 0,
pointing at the first root) is dropped, contradicting "no record of the first
tree is lost".  The cleaned range is just `[root₀]`. -/
theorem clean_drops_first_tree_record :
    cell_record_range_clean
        [⟨1, 0, 0, 0, 0, 1, -1⟩, ⟨1, 1, 0, 0, 0, 1, -1⟩, ⟨1, 2, 0, 0, 0, 1, 0⟩]
      = .ok [⟨1, 0, 0, 0, 0, 1, -1⟩] ∧
    (⟨1, 2, 0, 0, 0, 1, 0⟩ : cell_record).parent_id =
      (⟨1, 0, 0, 0, 0, 1, -1⟩ : cell_record).id ∧
    (⟨1, 2, 0, 0, 0, 1, 0⟩ : cell_record) ∉
      [(⟨1, 0, 0, 0, 0, 1, -1⟩ : cell_record)] := by
  refine ⟨rfl, rfl, ?_⟩; decide

/-- C1 (amended): normalization retains exactly the first occurrences of the
records that strictly precede the second root of the input, and drops every
record from the second root onward — including records of the first tree that
appear after it; the retained prefix is then sorted if needed and renumbered. -/
theorem clean_processes_prefix_before_second_root (rs : List cell_record) :
    (collectAux rs [] 0 (-1) false).1 = dedup_by [] (roots_front 0 rs) ∧
    cell_record_range_clean rs = renumber_range (retainedRecords rs) 0 [] :=
  ⟨collectAux_fst_eq rs [] 0 (-1) false, rfl⟩

/-! ## C7: idempotence on canonical inputs -/

/-- On an input whose ids are dense starting at `n`, none seen before, none
below `lastId`, and whose only possible root is its first record seen with
`numTrees = 0`, the collection loop keeps everything and never sets
`needsort`. -/
theorem collectAux_canon :
    ∀ (rs : List cell_record) (n : Nat) (seen : List Int) (numTrees : Nat)
      (lastId : Int),
      (∀ i (h : i < rs.length), (rs.get ⟨i, h⟩).id = n + i) →
      (∀ c ∈ rs, c.id ∉ seen) →
      (∀ c ∈ rs, ¬ c.id < lastId) →
      (∀ i (h : i < rs.length), (rs.get ⟨i, h⟩).parent_id = -1 →
        numTrees = 0 ∧ i = 0) →
      collectAux rs seen numTrees lastId false = (rs, false)
  | [], _, _, _, _, _, _, _, _ => rfl
  | c :: rest, n, seen, numTrees, lastId, hid, hseen, hlast, hroot => by
    have hc : c.id = n := by simpa using hid 0 (by simp)
    have hbrk : ¬(c.parent_id = -1 ∧ 1 ≤ numTrees) := by
      rintro ⟨hp, hge⟩
      have := (hroot 0 (by simp) (by simpa using hp)).1
      omega
    have hdup : c.id ∉ seen := hseen c (List.mem_cons_self c rest)
    have hns : (false || decide (c.id < lastId)) = false := by
      simp [hlast c (List.mem_cons_self c rest)]
    have hrestid : ∀ i (h : i < rest.length),
        (rest.get ⟨i, h⟩).id = (n + 1) + i := by
      intro i h
      have := hid (i + 1) (by simpa using Nat.succ_lt_succ h)
      simp only [List.get_cons_succ] at this
      rw [this]; push_cast; ring
    have hmem : ∀ c' ∈ rest, ∃ i, ∃ h : i < rest.length,
        rest.get ⟨i, h⟩ = c' := by
      intro c' hc'
      obtain ⟨⟨i, h⟩, hg⟩ := List.mem_iff_get.mp hc'
      exact ⟨i, h, hg⟩
    have hrestseen : ∀ c' ∈ rest, c'.id ∉ c.id :: seen := by
      intro c' hc'
      obtain ⟨i, h, hg⟩ := hmem c' hc'
      have hcid : c'.id = (n + 1) + i := by rw [← hg]; exact hrestid i h
      intro hmemc
      rcases List.mem_cons.mp hmemc with heq | hins
      · rw [hcid, hc] at heq; omega
      · exact hseen c' (List.mem_cons_of_mem c hc') hins
    have hrestlast : ∀ c' ∈ rest, ¬ c'.id < c.id := by
      intro c' hc'
      obtain ⟨i, h, hg⟩ := hmem c' hc'
      have hcid : c'.id = (n + 1) + i := by rw [← hg]; exact hrestid i h
      rw [hcid, hc]; omega
    have hrestroot : ∀ i (h : i < rest.length),
        (rest.get ⟨i, h⟩).parent_id = -1 →
          (if c.parent_id = -1 then numTrees + 1 else numTrees) = 0 ∧ i = 0 := by
      intro i h hp
      have := hroot (i + 1) (by simpa using Nat.succ_lt_succ h)
      simp only [List.get_cons_succ] at this
      exact absurd (this hp).2 (by omega)
    have ihr := collectAux_canon rest (n + 1) (c.id :: seen)
      (if c.parent_id = -1 then numTrees + 1 else numTrees) c.id
      hrestid hrestseen hrestlast hrestroot
    simp only [collectAux, if_neg hbrk, if_neg hdup, hns, ihr]

/-- When every record's id already equals its target `next_id`, the
renumbering loop leaves the list untouched and succeeds. -/
theorem renumber_range_skip :
    ∀ (cs : List cell_record) (k : Int) (m : List (Int × Int)),
      (∀ i (h : i < cs.length), (cs.get ⟨i, h⟩).id = k + i) →
      renumber_range cs k m = .ok cs
  | [], _, _, _ => rfl
  | c :: rest, k, m, h => by
    have hc : c.id = k := by simpa using h 0 (by simp)
    have hrest : ∀ i (hi : i < rest.length),
        (rest.get ⟨i, hi⟩).id = (k + 1) + i := by
      intro i hi
      have := h (i + 1) (by simpa using Nat.succ_lt_succ hi)
      simp only [List.get_cons_succ] at this
      rw [this]; push_cast; ring
    simp only [renumber_range, hc, ne_eq, not_true_eq_false, if_false,
      renumber_range_skip rest (k + 1) m hrest]

/-- C7: normalizing an already-canonical sequence — dense zero-based ids (so
no duplicates), a single tree (only the first record may be a root), every
record individually consistent — returns the sequence unchanged. -/
theorem clean_idempotent (rs : List cell_record)
    (hid : ∀ i (h : i < rs.length), (rs.get ⟨i, h⟩).id = i)
    (hroot : ∀ i (h : i < rs.length), 0 < i → (rs.get ⟨i, h⟩).parent_id ≠ -1)
    (_hok : ∀ c ∈ rs, c.check_consistency = .ok ()) :
    cell_record_range_clean rs = .ok rs := by
  have hid0 : ∀ i (h : i < rs.length), (rs.get ⟨i, h⟩).id = (0 : Nat) + i := by
    intro i h; rw [hid i h]; push_cast; ring
  have hlast : ∀ c ∈ rs, ¬ c.id < -1 := by
    intro c hc
    obtain ⟨⟨i, h⟩, hg⟩ := List.mem_iff_get.mp hc
    rw [← hg, hid i h]; omega
  have hroot0 : ∀ i (h : i < rs.length), (rs.get ⟨i, h⟩).parent_id = -1 →
      (0 : Nat) = 0 ∧ i = 0 := by
    intro i h hp
    refine ⟨rfl, ?_⟩
    by_contra hne
    exact hroot i h (by omega) hp
  have hcol := collectAux_canon rs 0 [] 0 (-1) hid0 (by simp) hlast hroot0
  have hret : retainedRecords rs = rs := by
    simp [retainedRecords, hcol]
  rw [cell_record_range_clean, hret]
  exact renumber_range_skip rs 0 [] hid0

/-- Witness for C7 at the spec's five-record example, in canonical order. -/
theorem clean_idempotent_witness :
    cell_record_range_clean
        [⟨1, 0, 0, 0, 0, 1, -1⟩, ⟨1, 1, 0, 0, 0, 1, 0⟩, ⟨1, 2, 0, 0, 0, 1, 0⟩,
          ⟨1, 3, 0, 0, 0, 1, 2⟩, ⟨1, 4, 0, 0, 0, 1, 2⟩]
      = .ok
        [⟨1, 0, 0, 0, 0, 1, -1⟩, ⟨1, 1, 0, 0, 0, 1, 0⟩, ⟨1, 2, 0, 0, 0, 1, 0⟩,
          ⟨1, 3, 0, 0, 0, 1, 2⟩, ⟨1, 4, 0, 0, 0, 1, 2⟩] :=
  clean_idempotent _ (by decide) (by decide) (by intro c hc; fin_cases hc <;> rfl)

/-! ## C5: dense renumbering with consistent parent rewriting

Helper lemmas about lists with strictly increasing ids, the insertion sort,
the deduplication, and the `needsort` flag, then the main induction on the
renumbering loop. -/


/-- Positions bound ids from below in a strictly-increasing nonnegative list. -/
theorem id_ge_of_pairwise (R : List cell_record)
    (hchain : R.Pairwise (fun a b => a.id < b.id))
    (hnn : ∀ c ∈ R, 0 ≤ c.id) :
    ∀ i (h : i < R.length), (i : Int) ≤ (R.get ⟨i, h⟩).id := by
  intro i
  induction i with
  | zero => intro h; simpa using hnn _ (R.get_mem 0 h)
  | succ n ihn =>
    intro h
    have hn : n < R.length := by omega
    have hlt : (R.get ⟨n, hn⟩).id < (R.get ⟨n + 1, h⟩).id :=
      (List.pairwise_iff_get.mp hchain) ⟨n, hn⟩ ⟨n + 1, h⟩ (by simp)
    have hge := ihn hn
    push_cast
    omega

/-- Index gaps bound id gaps in a strictly-increasing list. -/
theorem id_gap_of_pairwise (R : List cell_record)
    (hchain : R.Pairwise (fun a b => a.id < b.id)) :
    ∀ d a (ha : a < R.length) (hd : a + d < R.length),
      (R.get ⟨a, ha⟩).id + d ≤ (R.get ⟨a + d, hd⟩).id := by
  intro d
  induction d with
  | zero => intro a ha hd; simp
  | succ n ihn =>
    intro a ha hd
    have h1 : a + n < R.length := by omega
    have h2 := ihn a ha h1
    have hlt : (R.get ⟨a + n, h1⟩).id < (R.get ⟨a + (n + 1), hd⟩).id :=
      (List.pairwise_iff_get.mp hchain) ⟨a + n, h1⟩ ⟨a + (n + 1), hd⟩ (by simp)
    push_cast
    push_cast at h2
    omega

/-- Ids determine positions in a strictly-increasing list. -/
theorem id_inj_of_pairwise (R : List cell_record)
    (hchain : R.Pairwise (fun a b => a.id < b.id)) :
    ∀ i j (hi : i < R.length) (hj : j < R.length),
      (R.get ⟨i, hi⟩).id = (R.get ⟨j, hj⟩).id → i = j := by
  intro i j hi hj heq
  rcases Nat.lt_trichotomy i j with h | h | h
  · have := (List.pairwise_iff_get.mp hchain) ⟨i, hi⟩ ⟨j, hj⟩ h
    omega
  · exact h
  · have := (List.pairwise_iff_get.mp hchain) ⟨j, hj⟩ ⟨i, hi⟩ h
    omega

theorem insertById_perm (c : cell_record) (l : List cell_record) :
    (insertById c l).Perm (c :: l) := by
  induction l with
  | nil => rfl
  | cons d rest ih =>
    simp only [insertById]
    split_ifs with h
    · rfl
    · exact ((ih.cons d).trans (List.Perm.swap c d rest))

theorem sortById_perm (l : List cell_record) : (sortById l).Perm l := by
  induction l with
  | nil => rfl
  | cons c rest ih => exact (insertById_perm c (sortById rest)).trans (ih.cons c)

theorem insertById_pairwise_le (c : cell_record) (l : List cell_record)
    (hl : l.Pairwise (fun a b => a.id ≤ b.id)) :
    (insertById c l).Pairwise (fun a b => a.id ≤ b.id) := by
  induction l with
  | nil => simp [insertById]
  | cons d rest ih =>
    simp only [insertById]
    rcases List.pairwise_cons.mp hl with ⟨hd, hrest⟩
    split_ifs with h
    · exact List.pairwise_cons.mpr
        ⟨by
          intro b hb
          rcases List.mem_cons.mp hb with rfl | hb
          · exact h
          · exact le_trans h (hd b hb), hl⟩
    · refine List.pairwise_cons.mpr ⟨?_, ih hrest⟩
      intro b hb
      have hb' := (insertById_perm c rest).mem_iff.mp hb
      rcases List.mem_cons.mp hb' with rfl | hb'
      · exact le_of_not_le h
      · exact hd b hb'

theorem sortById_pairwise_le (l : List cell_record) :
    (sortById l).Pairwise (fun a b => a.id ≤ b.id) := by
  induction l with
  | nil => simp [sortById]
  | cons c rest ih => exact insertById_pairwise_le c (sortById rest) ih

theorem dedup_by_subset (seen : List Int) (l : List cell_record) :
    ∀ c ∈ dedup_by seen l, c ∈ l := by
  induction l generalizing seen with
  | nil => simp [dedup_by]
  | cons d rest ih =>
    intro c hc
    simp only [dedup_by] at hc
    split_ifs at hc with h
    · exact List.mem_cons_of_mem d (ih seen c hc)
    · rcases List.mem_cons.mp hc with rfl | hc
      · exact List.mem_cons_self c rest
      · exact List.mem_cons_of_mem d (ih (d.id :: seen) c hc)

theorem dedup_by_not_seen (seen : List Int) (l : List cell_record) :
    ∀ c ∈ dedup_by seen l, c.id ∉ seen := by
  induction l generalizing seen with
  | nil => simp [dedup_by]
  | cons d rest ih =>
    intro c hc
    simp only [dedup_by] at hc
    split_ifs at hc with h
    · exact ih seen c hc
    · rcases List.mem_cons.mp hc with rfl | hc
      · exact h
      · intro hmem
        exact ih (d.id :: seen) c hc (List.mem_cons_of_mem _ hmem)

theorem dedup_by_pairwise_ne (seen : List Int) (l : List cell_record) :
    (dedup_by seen l).Pairwise (fun a b => a.id ≠ b.id) := by
  induction l generalizing seen with
  | nil => simp [dedup_by]
  | cons d rest ih =>
    simp only [dedup_by]
    split_ifs with h
    · exact ih seen
    · refine List.pairwise_cons.mpr ⟨?_, ih (d.id :: seen)⟩
      intro b hb heq
      exact dedup_by_not_seen (d.id :: seen) rest b hb (heq ▸ List.mem_cons_self _ _)

theorem dedup_by_coverage (seen : List Int) (l : List cell_record) :
    ∀ c ∈ l, c.id ∈ seen ∨ ∃ c' ∈ dedup_by seen l, c'.id = c.id := by
  induction l generalizing seen with
  | nil => simp
  | cons d rest ih =>
    intro c hc
    simp only [dedup_by]
    rcases List.mem_cons.mp hc with rfl | hc
    · by_cases h : c.id ∈ seen
      · exact Or.inl h
      · exact Or.inr ⟨c, by simp [h], rfl⟩
    · by_cases h : d.id ∈ seen
      · rcases ih seen c hc with hs | ⟨c', hc', he⟩
        · exact Or.inl hs
        · exact Or.inr ⟨c', by simp [h, hc'], he⟩
      · rcases ih (d.id :: seen) c hc with hs | ⟨c', hc', he⟩
        · rcases List.mem_cons.mp hs with he | hs
          · exact Or.inr ⟨d, by simp [h], he.symm⟩
          · exact Or.inl hs
        · exact Or.inr ⟨c', by simp [h, List.mem_cons_of_mem, hc'], he⟩

/-- Once `needsort` is raised it stays raised. -/
theorem collectAux_ns_mono (rs : List cell_record) :
    ∀ seen numTrees lastId, (collectAux rs seen numTrees lastId true).2 = true := by
  induction rs with
  | nil => intro seen numTrees lastId; rfl
  | cons c rest ih =>
    intro seen numTrees lastId
    by_cases hbrk : c.parent_id = -1 ∧ 1 ≤ numTrees
    · simp only [collectAux, if_pos hbrk]
    · by_cases hdup : c.id ∈ seen
      · simp only [collectAux, if_neg hbrk, if_pos hdup]
        exact ih _ _ _
      · simp only [collectAux, if_neg hbrk, if_neg hdup, Bool.true_or]
        exact ih (c.id :: seen) _ c.id

/-- Chain predicate: every record's id is at least the running `lastId`. -/
def idChainFrom : Int → List cell_record → Prop
  | _, [] => True
  | lastId, c :: rest => ¬ c.id < lastId ∧ idChainFrom c.id rest

/-- When the collection loop reports no sorting needed, the collected
records' ids form a nondecreasing chain from the initial `lastId`. -/
theorem collectAux_chain_of_ns_false (rs : List cell_record) :
    ∀ seen numTrees lastId,
      (collectAux rs seen numTrees lastId false).2 = false →
      idChainFrom lastId (collectAux rs seen numTrees lastId false).1 := by
  induction rs with
  | nil => intro seen numTrees lastId _; trivial
  | cons c rest ih =>
    intro seen numTrees lastId hns
    by_cases hbrk : c.parent_id = -1 ∧ 1 ≤ numTrees
    · simp only [collectAux, if_pos hbrk]
      trivial
    · by_cases hdup : c.id ∈ seen
      · simp only [collectAux, if_neg hbrk, if_pos hdup] at hns ⊢
        exact ih seen _ lastId hns
      · simp only [collectAux, if_neg hbrk, if_neg hdup, Bool.false_or] at hns ⊢
        by_cases hlt : c.id < lastId
        · exfalso
          have hns' : (collectAux rest (c.id :: seen)
              (if c.parent_id = -1 then numTrees + 1 else numTrees) c.id
              (decide (c.id < lastId))).2 = false := hns
          rw [decide_eq_true hlt,
            collectAux_ns_mono rest (c.id :: seen) _ c.id] at hns'
          exact Bool.true_eq_false.mp hns'
        · have hns' : (collectAux rest (c.id :: seen)
              (if c.parent_id = -1 then numTrees + 1 else numTrees) c.id
              (decide (c.id < lastId))).2 = false := hns
          rw [decide_eq_false hlt] at hns'
          rw [decide_eq_false hlt]
          exact ⟨hlt, ih (c.id :: seen) _ c.id hns'⟩

theorem idChainFrom_ge (lastId : Int) (l : List cell_record)
    (h : idChainFrom lastId l) : ∀ c ∈ l, lastId ≤ c.id := by
  induction l generalizing lastId with
  | nil => simp
  | cons d rest ih =>
    rcases h with ⟨hd, hrest⟩
    intro c hc
    rcases List.mem_cons.mp hc with rfl | hc
    · omega
    · exact le_trans (by omega) (ih d.id hrest c hc)

theorem idChainFrom_pairwise_le (lastId : Int) (l : List cell_record)
    (h : idChainFrom lastId l) : l.Pairwise (fun a b => a.id ≤ b.id) := by
  induction l generalizing lastId with
  | nil => simp
  | cons d rest ih =>
    rcases h with ⟨hd, hrest⟩
    exact List.pairwise_cons.mpr ⟨idChainFrom_ge d.id rest hrest, ih d.id hrest⟩

/-- The records retained by collection and conditional sort have pairwise
strictly increasing ids, unconditionally. -/
theorem retainedRecords_pairwise (rs : List cell_record) :
    (retainedRecords rs).Pairwise (fun a b => a.id < b.id) := by
  unfold retainedRecords
  have hfst := collectAux_fst_eq rs [] 0 (-1) false
  have hne : (collectAux rs [] 0 (-1) false).1.Pairwise (fun a b => a.id ≠ b.id) := by
    rw [hfst]; exact dedup_by_pairwise_ne [] (roots_front 0 rs)
  rcases hcol : collectAux rs [] 0 (-1) false with ⟨cs, ns⟩
  rw [hcol] at hne
  cases ns with
  | false =>
    simp only [if_neg Bool.false_ne_true]
    have hch := collectAux_chain_of_ns_false rs [] 0 (-1) (by rw [hcol])
    rw [hcol] at hch
    have hle := idChainFrom_pairwise_le (-1) cs hch
    refine (hle.and hne).imp ?_
    intro a b hab
    exact lt_of_le_of_ne hab.1 hab.2
  | true =>
    simp only [if_pos rfl]
    have hle := sortById_pairwise_le cs
    have hne' : (sortById cs).Pairwise (fun a b => a.id ≠ b.id) := by
      refine ((sortById_perm cs).pairwise_iff ?_).mpr hne
      intro a b hab
      exact hab.symm
    refine (hle.and hne').imp ?_
    intro a b hab
    exact lt_of_le_of_ne hab.1 hab.2

/-- Every retained record comes from the input. -/
theorem retainedRecords_subset (rs : List cell_record) :
    ∀ c ∈ retainedRecords rs, c ∈ rs := by
  have hpre : ∀ nt, ∀ c ∈ roots_front nt rs, c ∈ rs := by
    induction rs with
    | nil => simp [roots_front]
    | cons d rest ih =>
      intro nt c hc
      simp only [roots_front] at hc
      by_cases h : d.parent_id = -1 ∧ 1 ≤ nt
      · rw [if_pos h] at hc
        simp at hc
      · rw [if_neg h] at hc
        rcases List.mem_cons.mp hc with rfl | hc'
        · exact List.mem_cons_self c rest
        · exact List.mem_cons_of_mem d (ih _ c hc')
  intro c hc
  unfold retainedRecords at hc
  rcases hcol : collectAux rs [] 0 (-1) false with ⟨cs, ns⟩
  rw [hcol] at hc
  have hcs : c ∈ cs := by
    cases ns with
    | false => simpa using hc
    | true =>
      simp only [if_pos rfl] at hc
      exact (sortById_perm cs).subset hc
  have := dedup_by_subset [] (roots_front 0 rs)
  rw [← collectAux_fst_eq rs [] 0 (-1) false] at this
  rw [hcol] at this
  exact hpre 0 c (this c hcs)

/-- Equal indices give equal list entries (proof-irrelevant form). -/
theorem get_idx_congr (R : List cell_record) {a b : Nat}
    (ha : a < R.length) (hb : b < R.length) (hab : a = b) :
    R.get ⟨a, ha⟩ = R.get ⟨b, hb⟩ := by
  subst hab
  rfl

/-- Main induction for the renumbering loop: renumbering the suffix of `R`
from position `k` with an id map faithful to the prefix succeeds, produces
dense ids `k, k+1, …`, preserves all payload fields, and rewrites each parent
reference to the position of the parent's record. -/
theorem renumber_range_spec (R : List cell_record)
    (hchain : R.Pairwise (fun a b => a.id < b.id))
    (hnn : ∀ c ∈ R, 0 ≤ c.id)
    (hval : ∀ c ∈ R, 0 ≤ c.type ∧ c.type ≤ kind_custom ∧ 0 ≤ c.r)
    (hlink : ∀ i (h : i < R.length), (R.get ⟨i, h⟩).parent_id = -1 ∨
      ∃ j, ∃ hj : j < R.length, j < i ∧
        (R.get ⟨j, hj⟩).id = (R.get ⟨i, h⟩).parent_id) :
    ∀ n k (m : List (Int × Int)), R.length - k = n →
      (∀ p q, lookupAL m p = some q → ∃ j, ∃ hj : j < R.length, j < k ∧
        (R.get ⟨j, hj⟩).id = p ∧ q = (j : Int) ∧ p ≠ (j : Int)) →
      (∀ j (hj : j < R.length), j < k → (R.get ⟨j, hj⟩).id ≠ (j : Int) →
        lookupAL m (R.get ⟨j, hj⟩).id = some (j : Int)) →
      ∃ out, renumber_range (R.drop k) (k : Int) m = .ok out ∧
        out.length = R.length - k ∧
        ∀ i (h : i < out.length) (hRi : k + i < R.length),
          (out.get ⟨i, h⟩).id = (k + i : Int) ∧
          (out.get ⟨i, h⟩).type = (R.get ⟨k + i, hRi⟩).type ∧
          (out.get ⟨i, h⟩).x = (R.get ⟨k + i, hRi⟩).x ∧
          (out.get ⟨i, h⟩).y = (R.get ⟨k + i, hRi⟩).y ∧
          (out.get ⟨i, h⟩).z = (R.get ⟨k + i, hRi⟩).z ∧
          (out.get ⟨i, h⟩).r = (R.get ⟨k + i, hRi⟩).r ∧
          ((R.get ⟨k + i, hRi⟩).parent_id = -1 →
            (out.get ⟨i, h⟩).parent_id = -1) ∧
          (∀ j (hj : j < R.length),
            (R.get ⟨j, hj⟩).id = (R.get ⟨k + i, hRi⟩).parent_id →
              (out.get ⟨i, h⟩).parent_id = (j : Int) ∧ j < k + i) ∧
          (out.get ⟨i, h⟩).parent_id < (k + i : Int) := by
  have hidge := id_ge_of_pairwise R hchain hnn
  have hgap := id_gap_of_pairwise R hchain
  have hinj := id_inj_of_pairwise R hchain
  intro n
  induction n with
  | zero =>
    intro k m hn _ _
    have hk : R.length ≤ k := by omega
    refine ⟨[], ?_, by simp; omega, by intro i h; exact absurd h (by simp)⟩
    rw [List.drop_eq_nil_of_le hk]
    rfl
  | succ n ihn =>
    intro k m hn HM1 HM2
    have hk : k < R.length := by omega
    have hdrop : R.drop k = R.get ⟨k, hk⟩ :: R.drop (k + 1) :=
      List.drop_eq_get_cons hk
    set c := R.get ⟨k, hk⟩ with hcdef
    have hcval := hval c (R.get_mem k hk)
    have hcast : ((k + 1 : Nat) : Int) = (k : Int) + 1 := by push_cast; ring
    by_cases hc : c.id = (k : Int)
    -- skip branch: the id already equals next_id
    · have hbelow : ∀ j (hj : j < R.length), j ≤ k →
          (R.get ⟨j, hj⟩).id = (j : Int) := by
        intro j hj hjk
        have h1 := hgap (k - j) j hj (by omega)
        have h2 := hidge j hj
        have h3 := get_idx_congr R (show j + (k - j) < R.length by omega) hk
          (by omega)
        rw [h3, ← hcdef, hc] at h1
        omega
      have HM2' : ∀ j (hj : j < R.length), j < k + 1 →
          (R.get ⟨j, hj⟩).id ≠ (j : Int) →
          lookupAL m (R.get ⟨j, hj⟩).id = some (j : Int) := by
        intro j hj hjk hne
        rcases Nat.lt_succ_iff_lt_or_eq.mp hjk with hjk' | rfl
        · exact HM2 j hj hjk' hne
        · exact absurd hc hne
      have HM1' : ∀ p q, lookupAL m p = some q → ∃ j, ∃ hj : j < R.length,
          j < k + 1 ∧ (R.get ⟨j, hj⟩).id = p ∧ q = (j : Int) ∧ p ≠ (j : Int) := by
        intro p q hpq
        obtain ⟨j, hj, hjk, hrest⟩ := HM1 p q hpq
        exact ⟨j, hj, by omega, hrest⟩
      obtain ⟨out', hout'eq, hout'len, hout'props⟩ :=
        ihn (k + 1) m (by omega) HM1' HM2'
      rw [hcast] at hout'eq
      refine ⟨c :: out', ?_, by simp [hout'len]; omega, ?_⟩
      · rw [hdrop]
        simp only [renumber_range, ← hcdef, if_neg (not_not_intro hc), hout'eq]
      · intro i h hRi
        match i with
        | 0 =>
          refine ⟨?_, rfl, rfl, rfl, rfl, rfl, fun hp => hp, ?_, ?_⟩
          · show c.id = ((k : Int) + ((0 : Nat) : Int))
            rw [hc]
            push_cast
            ring
          · intro j hj hjid
            have hjid' : (R.get ⟨j, hj⟩).id = c.parent_id := hjid
            rcases hlink k hk with hroot | ⟨j0, hj0, hj0k, hj0id⟩
            · have hroot' : c.parent_id = -1 := hroot
              rw [hroot'] at hjid'
              have := hidge j hj
              omega
            · have hj0id' : (R.get ⟨j0, hj0⟩).id = c.parent_id := hj0id
              have hjj0 : j = j0 := hinj j j0 hj hj0 (by rw [hjid', hj0id'])
              subst hjj0
              have hjeq := hbelow j hj (by omega)
              exact ⟨hjid'.symm.trans hjeq, by omega⟩
          · show c.parent_id < ((k : Int) + ((0 : Nat) : Int))
            rcases hlink k hk with hroot | ⟨j0, hj0, hj0k, hj0id⟩
            · have hroot' : c.parent_id = -1 := hroot
              rw [hroot']
              push_cast
              omega
            · have hj0id' : (R.get ⟨j0, hj0⟩).id = c.parent_id := hj0id
              have hjeq := hbelow j0 hj0 (by omega)
              rw [← hj0id', hjeq]
              push_cast
              omega
        | i + 1 =>
          have h' : i < out'.length := by
            simp only [List.length_cons] at h
            omega
          have hRi' : (k + 1) + i < R.length := by omega
          have hmain := hout'props i h' hRi'
          have hswap : R.get ⟨(k + 1) + i, hRi'⟩ = R.get ⟨k + (i + 1), hRi⟩ :=
            get_idx_congr R hRi' hRi (by omega)
          rw [hswap] at hmain
          simp only [List.get_cons_succ]
          obtain ⟨m1, m2, m3, m4, m5, m6, m7, m8, m9⟩ := hmain
          refine ⟨by rw [m1]; push_cast; ring, m2, m3, m4, m5, m6, m7, ?_, ?_⟩
          · intro j hj hjid
            obtain ⟨ha, hb⟩ := m8 j hj hjid
            exact ⟨ha, by omega⟩
          · have h9 := m9
            push_cast at h9 ⊢
            omega
    -- renumber branch: the id differs from next_id
    · have hlenA : R.length - (k + 1) = n := by omega
      have hlenB : R.length - (k + 1) + 1 = R.length - k := by omega
      have hpar := hlink k hk
      rw [← hcdef] at hpar
      have key : ∃ pval : Int,
          c.renumber (k : Int) m =
            .ok ({ c with id := (k : Int), parent_id := pval },
              (c.id, (k : Int)) :: m) ∧
          (c.parent_id = -1 → pval = -1) ∧
          (∀ j (hj : j < R.length), (R.get ⟨j, hj⟩).id = c.parent_id →
            pval = (j : Int) ∧ j < k) ∧
          pval < (k : Int) := by
        rcases hpar with hroot | ⟨j0, hj0, hj0k, hj0id⟩
        · have hlk : lookupAL m c.parent_id = none := by
            cases hl : lookupAL m c.parent_id with
            | none => rfl
            | some q =>
              obtain ⟨j, hj, _, hid, _, _⟩ := HM1 _ _ hl
              have := hidge j hj
              rw [hroot] at hid
              omega
          have hchk : ({ c with id := (k : Int) } : cell_record).check_consistency
              = .ok () := by
            rw [check_ok_iff]
            refine ⟨hcval.1, hcval.2.1, by positivity, ?_, ?_, hcval.2.2⟩
            · show -1 ≤ c.parent_id
              rw [hroot]
            · show c.parent_id < (k : Int)
              rw [hroot]
              omega
          refine ⟨c.parent_id, ?_, fun h => h, ?_, by rw [hroot]; omega⟩
          · simp only [cell_record.renumber, hlk, hchk]
          · intro j hj hjid
            rw [hroot] at hjid
            have := hidge j hj
            omega
        · by_cases hj0self : (R.get ⟨j0, hj0⟩).id = (j0 : Int)
          · have hlk : lookupAL m c.parent_id = none := by
              cases hl : lookupAL m c.parent_id with
              | none => rfl
              | some q =>
                obtain ⟨j1, hj1, hj1k, hid1, hq, hne1⟩ := HM1 _ _ hl
                have hj1j0 : j1 = j0 := hinj j1 j0 hj1 hj0 (by rw [hid1, hj0id])
                subst hj1j0
                exact absurd (hj0id.symm.trans hj0self) hne1
            have hparval : c.parent_id = (j0 : Int) := by
              rw [← hj0id, hj0self]
            have hchk : ({ c with id := (k : Int) } : cell_record).check_consistency
                = .ok () := by
              rw [check_ok_iff]
              refine ⟨hcval.1, hcval.2.1, by positivity, ?_, ?_, hcval.2.2⟩
              · show -1 ≤ c.parent_id
                rw [hparval]
                omega
              · show c.parent_id < (k : Int)
                rw [hparval]
                omega
            refine ⟨c.parent_id, ?_, ?_, ?_, by rw [hparval]; omega⟩
            · simp only [cell_record.renumber, hlk, hchk]
            · intro h
              rw [hparval] at h
              omega
            · intro j hj hjid
              have hjj0 : j = j0 := hinj j j0 hj hj0 (by rw [hjid, hj0id])
              subst hjj0
              exact ⟨hjid.symm.trans hj0self, hj0k⟩
          · have hlk : lookupAL m c.parent_id = some (j0 : Int) := by
              rw [← hj0id]
              exact HM2 j0 hj0 hj0k hj0self
            have hchk : ({ c with id := (k : Int), parent_id := (j0 : Int) } :
                cell_record).check_consistency = .ok () := by
              rw [check_ok_iff]
              refine ⟨hcval.1, hcval.2.1, by positivity, ?_, ?_, hcval.2.2⟩
              · show -1 ≤ (j0 : Int)
                omega
              · show (j0 : Int) < (k : Int)
                omega
            refine ⟨(j0 : Int), ?_, ?_, ?_, by omega⟩
            · simp only [cell_record.renumber, hlk, hchk]
            · intro h
              rw [← hj0id] at h
              have := hidge j0 hj0
              omega
            · intro j hj hjid
              have hjj0 : j = j0 := hinj j j0 hj hj0 (by rw [hjid, hj0id])
              subst hjj0
              exact ⟨rfl, hj0k⟩
      obtain ⟨pval, hres, hpv3, hpv4, hpv2⟩ := key
      have HM1' : ∀ p q, lookupAL ((c.id, (k : Int)) :: m) p = some q →
          ∃ j, ∃ hj : j < R.length, j < k + 1 ∧
            (R.get ⟨j, hj⟩).id = p ∧ q = (j : Int) ∧ p ≠ (j : Int) := by
        intro p q hpq
        simp only [lookupAL] at hpq
        split_ifs at hpq with hp
        · simp only [Option.some.injEq] at hpq
          subst hp
          exact ⟨k, hk, by omega, rfl, hpq.symm, fun habs => hc (by rw [habs])⟩
        · obtain ⟨j, hj, hjk, hrest⟩ := HM1 p q hpq
          exact ⟨j, hj, by omega, hrest⟩
      have HM2' : ∀ j (hj : j < R.length), j < k + 1 →
          (R.get ⟨j, hj⟩).id ≠ (j : Int) →
          lookupAL ((c.id, (k : Int)) :: m) (R.get ⟨j, hj⟩).id =
            some (j : Int) := by
        intro j hj hjk hne
        rcases Nat.lt_succ_iff_lt_or_eq.mp hjk with hjk' | rfl
        · have hlkj := HM2 j hj hjk' hne
          have hne2 : (R.get ⟨j, hj⟩).id ≠ c.id := by
            intro habs
            have := hinj j k hj hk habs
            omega
          simp only [lookupAL, if_neg hne2]
          exact hlkj
        · simp only [lookupAL]
          split_ifs with hif
          · rfl
          · exact absurd trivial hif
      obtain ⟨out', hout'eq, hout'len, hout'props⟩ :=
        ihn (k + 1) ((c.id, (k : Int)) :: m) hlenA HM1' HM2'
      rw [hcast] at hout'eq
      refine ⟨{ c with id := (k : Int), parent_id := pval } :: out', ?_,
        by simp only [List.length_cons, hout'len]; exact hlenB, ?_⟩
      · rw [hdrop]
        simp only [renumber_range, ← hcdef]
        rw [if_pos hc]
        simp only [hres, hout'eq]
      · intro i h hRi
        match i with
        | 0 =>
          have hgetk : R.get ⟨k + 0, hRi⟩ = c := rfl
          simp only [List.get_cons_zero, hgetk]
          refine ⟨by simp, rfl, rfl, rfl, rfl, rfl, ?_, ?_, ?_⟩
          · intro hp
            exact hpv3 hp
          · intro j hj hjid
            obtain ⟨ha, hb⟩ := hpv4 j hj hjid
            exact ⟨ha, by omega⟩
          · show pval < ((k : Int) + (0 : Nat))
            push_cast
            omega
        | i + 1 =>
          have h' : i < out'.length := by
            simp only [List.length_cons] at h
            omega
          have hRi' : (k + 1) + i < R.length := by omega
          have hmain := hout'props i h' hRi'
          have hswap : R.get ⟨(k + 1) + i, hRi'⟩ = R.get ⟨k + (i + 1), hRi⟩ :=
            get_idx_congr R hRi' hRi (by omega)
          rw [hswap] at hmain
          simp only [List.get_cons_succ]
          obtain ⟨m1, m2, m3, m4, m5, m6, m7, m8, m9⟩ := hmain
          refine ⟨by rw [m1]; push_cast; ring, m2, m3, m4, m5, m6, m7, ?_, ?_⟩
          · intro j hj hjid
            obtain ⟨ha, hb⟩ := m8 j hj hjid
            exact ⟨ha, by omega⟩
          · have h9 := m9
            push_cast at h9 ⊢
            omega

/-- With at most one root in the input, the collection loop never breaks:
the prefix before a second root is the whole input. -/
theorem roots_front_single (rs : List cell_record)
    (hone : (rs.filter (fun c => c.parent_id = -1)).length ≤ 1) :
    roots_front 0 rs = rs := by
  have hnoroot : ∀ (l : List cell_record) nt, (∀ c ∈ l, c.parent_id ≠ -1) →
      roots_front nt l = l := by
    intro l
    induction l with
    | nil => intro nt _; rfl
    | cons d rest ih =>
      intro nt hnr
      have hd : d.parent_id ≠ -1 := hnr d (List.mem_cons_self d rest)
      have hcond : ¬(d.parent_id = -1 ∧ 1 ≤ nt) := fun hx => hd hx.1
      simp only [roots_front, if_neg hcond, if_neg hd]
      rw [ih nt (fun c hc => hnr c (List.mem_cons_of_mem d hc))]
  induction rs with
  | nil => rfl
  | cons d rest ih =>
    by_cases hd : d.parent_id = -1
    · have hlen : (rest.filter (fun c => c.parent_id = -1)).length = 0 := by
        rw [List.filter_cons_of_pos (by simp [hd])] at hone
        simp only [List.length_cons] at hone
        omega
      have hrest : ∀ c ∈ rest, c.parent_id ≠ -1 := by
        have hnil := List.length_eq_zero.mp hlen
        intro c hc hcp
        have hcf : c ∈ rest.filter (fun c => c.parent_id = -1) :=
          List.mem_filter.mpr ⟨hc, by simp [hcp]⟩
        rw [hnil] at hcf
        simp at hcf
      have hcond : ¬(d.parent_id = -1 ∧ 1 ≤ 0) := fun hx => by omega
      simp only [roots_front, if_neg hcond, if_pos hd]
      rw [hnoroot rest 1 hrest]
    · have hone' : (rest.filter (fun c => c.parent_id = -1)).length ≤ 1 := by
        rw [List.filter_cons_of_neg (by simp [hd])] at hone
        exact hone
      have hcond : ¬(d.parent_id = -1 ∧ 1 ≤ 0) := fun hx => by omega
      simp only [roots_front, if_neg hcond, if_neg hd]
      rw [ih hone']

/-- Membership transfers between the collected cells and the retained list. -/
theorem mem_retained_of_mem_collect (rs : List cell_record) (c : cell_record)
    (hc : c ∈ (collectAux rs [] 0 (-1) false).1) : c ∈ retainedRecords rs := by
  unfold retainedRecords
  rcases hcol : collectAux rs [] 0 (-1) false with ⟨cs, ns⟩
  rw [hcol] at hc
  cases ns with
  | false => simpa using hc
  | true =>
    simp only [if_pos rfl]
    exact (sortById_perm cs).mem_iff.mpr hc

/-- C5: on a valid input — every record individually consistent, at most one
root, every non-root parent reference resolving to some record of the input —
normalization succeeds; the output ids are exactly `0, 1, …, n−1` in final
order, payload fields are preserved, and each non-root record's parent id is
the new id (= position) of its original parent, which is renumbered strictly
before the record itself (`parent < own position`). -/
theorem clean_renumbers_densely (rs : List cell_record)
    (hval : ∀ c ∈ rs, c.check_consistency = .ok ())
    (hone : (rs.filter (fun c => c.parent_id = -1)).length ≤ 1)
    (hpar : ∀ c ∈ rs, c.parent_id = -1 ∨ ∃ c' ∈ rs, c'.id = c.parent_id) :
    ∃ out, cell_record_range_clean rs = .ok out ∧
      out.length = (retainedRecords rs).length ∧
      ∀ i (h : i < out.length) (hRi : i < (retainedRecords rs).length),
        (out.get ⟨i, h⟩).id = (i : Int) ∧
        (out.get ⟨i, h⟩).type = ((retainedRecords rs).get ⟨i, hRi⟩).type ∧
        (out.get ⟨i, h⟩).x = ((retainedRecords rs).get ⟨i, hRi⟩).x ∧
        (out.get ⟨i, h⟩).y = ((retainedRecords rs).get ⟨i, hRi⟩).y ∧
        (out.get ⟨i, h⟩).z = ((retainedRecords rs).get ⟨i, hRi⟩).z ∧
        (out.get ⟨i, h⟩).r = ((retainedRecords rs).get ⟨i, hRi⟩).r ∧
        (((retainedRecords rs).get ⟨i, hRi⟩).parent_id = -1 →
          (out.get ⟨i, h⟩).parent_id = -1) ∧
        (∀ j (hj : j < (retainedRecords rs).length),
          ((retainedRecords rs).get ⟨j, hj⟩).id =
            ((retainedRecords rs).get ⟨i, hRi⟩).parent_id →
          (out.get ⟨i, h⟩).parent_id = (j : Int) ∧ j < i) ∧
        (out.get ⟨i, h⟩).parent_id < (i : Int) := by
  set R := retainedRecords rs with hRdef
  have hchain := retainedRecords_pairwise rs
  have hsub := retainedRecords_subset rs
  rw [← hRdef] at hchain hsub
  have hnn : ∀ c ∈ R, 0 ≤ c.id := fun c hc =>
    ((check_ok_iff c).mp (hval c (hsub c hc))).2.2.1
  have hvalR : ∀ c ∈ R, 0 ≤ c.type ∧ c.type ≤ kind_custom ∧ 0 ≤ c.r := by
    intro c hc
    have h := (check_ok_iff c).mp (hval c (hsub c hc))
    exact ⟨h.1, h.2.1, h.2.2.2.2.2⟩
  have hcover : ∀ p : Int, (∃ c' ∈ rs, c'.id = p) →
      ∃ j, ∃ hj : j < R.length, (R.get ⟨j, hj⟩).id = p := by
    rintro p ⟨c', hc', rfl⟩
    have hpref : c' ∈ roots_front 0 rs := by
      rw [roots_front_single rs hone]
      exact hc'
    rcases dedup_by_coverage [] (roots_front 0 rs) c' hpref with habs | ⟨c2, hc2, he2⟩
    · simp at habs
    · have hc2R : c2 ∈ R := by
        rw [hRdef]
        apply mem_retained_of_mem_collect
        rw [collectAux_fst_eq rs [] 0 (-1) false, roots_front_single rs hone]
        rw [roots_front_single rs hone] at hc2
        exact hc2
      obtain ⟨⟨j, hj⟩, hg⟩ := List.mem_iff_get.mp hc2R
      exact ⟨j, hj, by rw [hg, he2]⟩
  have hlinkR : ∀ i (h : i < R.length), (R.get ⟨i, h⟩).parent_id = -1 ∨
      ∃ j, ∃ hj : j < R.length, j < i ∧
        (R.get ⟨j, hj⟩).id = (R.get ⟨i, h⟩).parent_id := by
    intro i h
    have hmem := hsub _ (R.get_mem i h)
    rcases hpar _ hmem with hroot | ⟨c', hc', hcid⟩
    · exact Or.inl hroot
    · right
      obtain ⟨j, hj, hjid⟩ := hcover _ ⟨c', hc', hcid⟩
      refine ⟨j, hj, ?_, hjid⟩
      have hplt : (R.get ⟨i, h⟩).parent_id < (R.get ⟨i, h⟩).id :=
        ((check_ok_iff _).mp (hval _ hmem)).2.2.2.2.1
      have hjlt : (R.get ⟨j, hj⟩).id < (R.get ⟨i, h⟩).id := by omega
      rcases Nat.lt_trichotomy j i with hlt | rfl | hgt
      · exact hlt
      · omega
      · have := (List.pairwise_iff_get.mp hchain) ⟨i, h⟩ ⟨j, hj⟩ hgt
        omega
  obtain ⟨out, hout, hlen, hprops⟩ := renumber_range_spec R hchain hnn hvalR
    hlinkR R.length 0 [] (by omega)
    (by intro p q hpq; simp [lookupAL] at hpq)
    (by intro j hj hjk; omega)
  rw [List.drop_zero] at hout
  refine ⟨out, ?_, by omega, ?_⟩
  · rw [cell_record_range_clean, ← hRdef]
    rw [Nat.cast_zero] at hout
    exact hout
  · intro i h hRi
    have hRi0 : 0 + i < R.length := by omega
    have hmain := hprops i h hRi0
    have hswap : R.get ⟨0 + i, hRi0⟩ = R.get ⟨i, hRi⟩ :=
      get_idx_congr R hRi0 hRi (by omega)
    rw [hswap] at hmain
    obtain ⟨m1, m2, m3, m4, m5, m6, m7, m8, m9⟩ := hmain
    refine ⟨by rw [m1]; push_cast; ring, m2, m3, m4, m5, m6, m7, ?_, ?_⟩
    · intro j hj hjid
      obtain ⟨ha, hb⟩ := m8 j hj hjid
      exact ⟨ha, by omega⟩
    · have h9 := m9
      push_cast at h9 ⊢
      omega

/-- Witness for C5 at the spec's example `{(0,−1),(1,0),(2,0),(3,2),(4,2)}`
given in scrambled order. -/
theorem clean_renumbers_densely_witness :
    ∃ out, cell_record_range_clean
        [⟨1, 3, 0, 0, 0, 1, 2⟩, ⟨1, 0, 0, 0, 0, 1, -1⟩, ⟨1, 4, 0, 0, 0, 1, 2⟩,
          ⟨1, 1, 0, 0, 0, 1, 0⟩, ⟨1, 2, 0, 0, 0, 1, 0⟩] = .ok out ∧
      out.length = (retainedRecords
        [⟨1, 3, 0, 0, 0, 1, 2⟩, ⟨1, 0, 0, 0, 0, 1, -1⟩, ⟨1, 4, 0, 0, 0, 1, 2⟩,
          ⟨1, 1, 0, 0, 0, 1, 0⟩, ⟨1, 2, 0, 0, 0, 1, 0⟩]).length ∧
      ∀ i (h : i < out.length) (hRi : i < (retainedRecords
          [⟨1, 3, 0, 0, 0, 1, 2⟩, ⟨1, 0, 0, 0, 0, 1, -1⟩, ⟨1, 4, 0, 0, 0, 1, 2⟩,
            ⟨1, 1, 0, 0, 0, 1, 0⟩, ⟨1, 2, 0, 0, 0, 1, 0⟩]).length),
        (out.get ⟨i, h⟩).id = (i : Int) ∧
        (out.get ⟨i, h⟩).type = ((retainedRecords
          [⟨1, 3, 0, 0, 0, 1, 2⟩, ⟨1, 0, 0, 0, 0, 1, -1⟩, ⟨1, 4, 0, 0, 0, 1, 2⟩,
            ⟨1, 1, 0, 0, 0, 1, 0⟩, ⟨1, 2, 0, 0, 0, 1, 0⟩]).get ⟨i, hRi⟩).type ∧
        (out.get ⟨i, h⟩).x = ((retainedRecords
          [⟨1, 3, 0, 0, 0, 1, 2⟩, ⟨1, 0, 0, 0, 0, 1, -1⟩, ⟨1, 4, 0, 0, 0, 1, 2⟩,
            ⟨1, 1, 0, 0, 0, 1, 0⟩, ⟨1, 2, 0, 0, 0, 1, 0⟩]).get ⟨i, hRi⟩).x ∧
        (out.get ⟨i, h⟩).y = ((retainedRecords
          [⟨1, 3, 0, 0, 0, 1, 2⟩, ⟨1, 0, 0, 0, 0, 1, -1⟩, ⟨1, 4, 0, 0, 0, 1, 2⟩,
            ⟨1, 1, 0, 0, 0, 1, 0⟩, ⟨1, 2, 0, 0, 0, 1, 0⟩]).get ⟨i, hRi⟩).y ∧
        (out.get ⟨i, h⟩).z = ((retainedRecords
          [⟨1, 3, 0, 0, 0, 1, 2⟩, ⟨1, 0, 0, 0, 0, 1, -1⟩, ⟨1, 4, 0, 0, 0, 1, 2⟩,
            ⟨1, 1, 0, 0, 0, 1, 0⟩, ⟨1, 2, 0, 0, 0, 1, 0⟩]).get ⟨i, hRi⟩).z ∧
        (out.get ⟨i, h⟩).r = ((retainedRecords
          [⟨1, 3, 0, 0, 0, 1, 2⟩, ⟨1, 0, 0, 0, 0, 1, -1⟩, ⟨1, 4, 0, 0, 0, 1, 2⟩,
            ⟨1, 1, 0, 0, 0, 1, 0⟩, ⟨1, 2, 0, 0, 0, 1, 0⟩]).get ⟨i, hRi⟩).r ∧
        (((retainedRecords
          [⟨1, 3, 0, 0, 0, 1, 2⟩, ⟨1, 0, 0, 0, 0, 1, -1⟩, ⟨1, 4, 0, 0, 0, 1, 2⟩,
            ⟨1, 1, 0, 0, 0, 1, 0⟩, ⟨1, 2, 0, 0, 0, 1, 0⟩]).get ⟨i, hRi⟩).parent_id
            = -1 → (out.get ⟨i, h⟩).parent_id = -1) ∧
        (∀ j (hj : j < (retainedRecords
            [⟨1, 3, 0, 0, 0, 1, 2⟩, ⟨1, 0, 0, 0, 0, 1, -1⟩, ⟨1, 4, 0, 0, 0, 1, 2⟩,
              ⟨1, 1, 0, 0, 0, 1, 0⟩, ⟨1, 2, 0, 0, 0, 1, 0⟩]).length),
          ((retainedRecords
            [⟨1, 3, 0, 0, 0, 1, 2⟩, ⟨1, 0, 0, 0, 0, 1, -1⟩, ⟨1, 4, 0, 0, 0, 1, 2⟩,
              ⟨1, 1, 0, 0, 0, 1, 0⟩, ⟨1, 2, 0, 0, 0, 1, 0⟩]).get ⟨j, hj⟩).id =
            ((retainedRecords
              [⟨1, 3, 0, 0, 0, 1, 2⟩, ⟨1, 0, 0, 0, 0, 1, -1⟩, ⟨1, 4, 0, 0, 0, 1, 2⟩,
                ⟨1, 1, 0, 0, 0, 1, 0⟩, ⟨1, 2, 0, 0, 0, 1, 0⟩]).get ⟨i, hRi⟩).parent_id →
          (out.get ⟨i, h⟩).parent_id = (j : Int) ∧ j < i) ∧
        (out.get ⟨i, h⟩).parent_id < (i : Int) :=
  clean_renumbers_densely _
    (by intro c hc; fin_cases hc <;> rfl)
    (by decide)
    (by decide)

/-! ## Morphology tree (`cell_tree`) -/

/-- Modelled from the spec: the number of child nodes of node `i` in a
parent-index array (`cell_tree.hpp` is not under `src/`; only its tests are).
A node `j ≠ 0` is a child of `parent_index[j]`; entry 0 encodes the root by
the `parent_index[0] == 0` convention (§6) and is never a child. -/
def children_count (p : List Nat) (i : Nat) : Nat :=
  ((List.range p.length).filter (fun j => j ≠ 0 ∧ p.getD j 0 = i)).length

/-- Modelled from the spec (§4.1): "a new branch begins whenever a node has
zero or ≥ 2 children, or is the root". -/
def branch_start_nodes (p : List Nat) : List Nat :=
  (List.range p.length).filter
    (fun i => i = 0 ∨ children_count p i = 0 ∨ 2 ≤ children_count p i)

/-- Modelled from the spec: `cell_tree::num_branches()`; "Empty or
single-entry input yields a one-branch tree … a normalization rule" (§4.1). -/
def num_branches (p : List Nat) : Nat :=
  if p.isEmpty then 1 else (branch_start_nodes p).length

/-- Walk towards the root until a branch-start node is reached (the
parent-index array satisfies `parent[i] < i`, so `fuel = i` suffices). -/
def up_to_start (p : List Nat) : Nat → Nat → Nat
  | 0, i => i
  | fuel + 1, i =>
    if i = 0 ∨ (i = 0 ∨ children_count p i = 0 ∨ 2 ≤ children_count p i) then i
    else up_to_start p fuel (p.getD i 0)

/-- Modelled from the spec: `cell_tree::num_children(b)` — the number of
branches whose start node's nearest branch-start proper ancestor is branch
`b`'s start node. -/
def num_children (p : List Nat) (b : Nat) : Nat :=
  if p.isEmpty then 0
  else
    let starts := branch_start_nodes p
    let s := starts.getD b p.length
    (starts.filter (fun j => j ≠ 0 ∧ up_to_start p j (p.getD j 0) = s)).length

/-- The spec-modelled tree reproduces the repository's `cell_tree` unit
tests (`TEST(cell_tree, from_parent_index)` and `test_balance`'s pre-balance
structure). -/
theorem cell_tree_matches_tests :
    num_branches [0, 0, 1, 2, 0, 4] = 3 ∧
    num_children [0, 0, 1, 2, 0, 4] 0 = 2 ∧
    num_children [0, 0, 1, 2, 0, 4] 1 = 0 ∧
    num_children [0, 0, 1, 2, 0, 4] 2 = 0 ∧
    num_branches [0, 0, 1, 2, 0, 4, 0, 6, 7, 8] = 4 ∧
    num_children [0, 0, 1, 2, 0, 4, 0, 6, 7, 8] 0 = 3 ∧
    num_branches [0, 0, 1, 2, 0, 4, 0, 6, 7, 8, 9, 8, 11, 12] = 6 ∧
    num_children [0, 0, 1, 2, 0, 4, 0, 6, 7, 8, 9, 8, 11, 12] 0 = 3 ∧
    num_children [0, 0, 1, 2, 0, 4, 0, 6, 7, 8, 9, 8, 11, 12] 3 = 2 ∧
    num_branches [0, 0, 1, 1] = 4 ∧
    num_children [0, 0, 1, 1] 0 = 1 ∧
    num_children [0, 0, 1, 1] 1 = 2 ∧
    num_branches [0, 0, 0, 1, 1] = 5 ∧
    num_children [0, 0, 0, 1, 1] 0 = 2 ∧
    num_children [0, 0, 0, 1, 1] 1 = 2 ∧
    num_branches [0, 0, 0, 1, 1, 4, 4] = 7 ∧
    num_children [0, 0, 0, 1, 1, 4, 4] 0 = 2 ∧
    num_children [0, 0, 0, 1, 1, 4, 4] 1 = 2 ∧
    num_children [0, 0, 0, 1, 1, 4, 4] 4 = 2 := by
  decide

/-- C8: constructing the tree from an empty or single-entry parent-index
array yields exactly one branch whose `num_children(0)` is 0 — the
normalization rule, not an error. -/
theorem cell_tree_trivial_inputs (x : Nat) :
    num_branches [] = 1 ∧ num_children [] 0 = 0 ∧
    num_branches [x] = 1 ∧ num_children [x] 0 = 0 := by
  have hr1 : List.range 1 = [0] := rfl
  refine ⟨rfl, rfl, ?_, ?_⟩
  · simp [num_branches, branch_start_nodes, hr1]
  · simp [num_children, branch_start_nodes, hr1]

/-! ## `swc_parser::parse_record` stream handling (`swcio.cpp`) -/

/-- Modelled from the spec: the "designated comment prefix" of the node-record
text format (§6); the constant lives in `swcio.hpp`, which is not under
`src/`.  The SWC comment marker is `#`. -/
def comment_mark : String := "#"

/-- `starts_with(str, prefix)` of `swcio.cpp` (`str.find(prefix) == 0`),
stated over the character lists so that it evaluates in the kernel. -/
def starts_with (str pre : String) : Bool := pre.data.isPrefixOf str.data

/-- A text input stream, modelled as its remaining lines plus the iostate
bits.  `finalNewline` records whether the remaining content ends in a newline
(it decides when `eofbit` is raised by the last `getline`). -/
structure istream_state where
  lines : List String
  finalNewline : Bool
  eofbit : Bool
  failbit : Bool
  badbit : Bool
deriving DecidableEq, Repr

/-- `std::getline(istream, string)` on a stream that is not already failed:
with no input left it extracts nothing, clears the buffer and raises
`eofbit`/`failbit`; reading the last line of content with no trailing newline
raises `eofbit`; otherwise it pops one line. -/
def getline (s : istream_state) : istream_state × String :=
  match s.lines with
  | [] => ({ s with eofbit := true, failbit := true }, "")
  | [l] =>
    if s.finalNewline then ({ s with lines := [] }, l)
    else ({ s with lines := [], eofbit := true }, l)
  | l :: rest => ({ s with lines := rest }, l)

theorem getline_lines_lt (s : istream_state) (l : String) (rest : List String)
    (h : s.lines = l :: rest) :
    (getline s).1.lines.length < s.lines.length := by
  match rest, h with
  | [], h => simp [getline, h]; split_ifs <;> simp
  | r :: rs, h => simp [getline, h]

/-- The skip loop of `swc_parser::parse_record`: consume empty and comment
lines, incrementing `lineno_` per `getline`, until a payload line is read or
the stream runs out.  A `getline` at end of input raises `eofbit`, so the
loop's next test exits; that exit is inlined in the `[]` branch. -/
def skip_lines (s : istream_state) (lineno : Nat) (linebuff : String) :
    istream_state × Nat × String :=
  if s.eofbit || s.badbit then (s, lineno, linebuff)
  else
    match hl : s.lines with
    | [] => ({ s with eofbit := true, failbit := true }, lineno + 1, "")
    | l :: rest =>
      let g := getline s
      if ¬ g.2.isEmpty ∧ ¬ starts_with g.2 comment_mark then (g.1, lineno + 1, g.2)
      else skip_lines g.1 (lineno + 1) g.2
termination_by s.lines.length
decreasing_by exact getline_lines_lt s l rest hl

/-- `swc_parse_error`: message plus 1-based line number. -/
structure swc_parse_err where
  msg : String
  line : Nat
deriving DecidableEq, Repr

/-- `swc_parser::parse_record(std::istream&, cell_record&)` of `swcio.cpp`.
`lineno`/`linebuff` are the parser's member state; the single-line overload
`parse_record(istringstream&)` is passed in as `lineParse` (none of the
claims depend on its field scanning); a `std::invalid_argument` from it is
rethrown as a parse error with the current line number.  Returning without
assigning the output record is modelled by returning `cell` unchanged. -/
def parse_record (lineParse : String → Except String cell_record)
    (s : istream_state) (lineno : Nat) (linebuff : String) (cell : cell_record) :
    Except swc_parse_err (istream_state × Nat × String × cell_record) :=
  let r := skip_lines s lineno linebuff
  let s' := r.1
  let n' := r.2.1
  let buf := r.2.2
  if s'.badbit then .ok (s', n', buf, cell)
  else if s'.eofbit ∧ (buf.isEmpty ∨ starts_with buf comment_mark) then
    .ok (s', n', buf, cell)
  else if s'.failbit then .error ⟨"too long line detected", n'⟩
  else
    match lineParse buf with
    | .error e => .error ⟨e, n'⟩
    | .ok c => .ok (s', n', buf, c)

/-- Nonempty lists ignore `getLastD`'s default. -/
theorem getLastD_ne_nil (xs : List String) (a b : String) (h : xs ≠ []) :
    xs.getLastD a = xs.getLastD b := by
  match xs, h with
  | [x], _ => rfl
  | x :: y :: ys, _ =>
    show (y :: ys).getLastD x = (y :: ys).getLastD x
    rfl

/-- One-step unfolding of the skip loop on a live stream with input left. -/
theorem skip_lines_cons (l : String) (rest : List String) (fnl fb : Bool)
    (lineno : Nat) (linebuff : String) :
    skip_lines ⟨l :: rest, fnl, false, fb, false⟩ lineno linebuff =
      (if ¬ (getline ⟨l :: rest, fnl, false, fb, false⟩).2.isEmpty = true ∧
          ¬ starts_with (getline ⟨l :: rest, fnl, false, fb, false⟩).2
              comment_mark = true
       then ((getline ⟨l :: rest, fnl, false, fb, false⟩).1, lineno + 1,
         (getline ⟨l :: rest, fnl, false, fb, false⟩).2)
       else skip_lines (getline ⟨l :: rest, fnl, false, fb, false⟩).1
         (lineno + 1) (getline ⟨l :: rest, fnl, false, fb, false⟩).2) := by
  rw [skip_lines.eq_def]
  rfl

/-- The skip loop exits at once on a stream already at eof. -/
theorem skip_lines_eof (ls : List String) (fnl fb bad : Bool)
    (lineno : Nat) (linebuff : String) :
    skip_lines ⟨ls, fnl, true, fb, bad⟩ lineno linebuff =
      (⟨ls, fnl, true, fb, bad⟩, lineno, linebuff) := by
  rw [skip_lines.eq_def]
  rfl

/-- The skip loop on a live stream with no input left: the failed `getline`
raises `eofbit` and `failbit`, clears the buffer and counts one more line. -/
theorem skip_lines_empty (fnl fb : Bool) (lineno : Nat) (linebuff : String) :
    skip_lines ⟨[], fnl, false, fb, false⟩ lineno linebuff =
      (⟨[], fnl, true, true, false⟩, lineno + 1, "") := by
  rw [skip_lines.eq_def]
  rfl

/-- On a good stream whose remaining lines are all empty or comments, the
skip loop consumes everything; the final state, counter and buffer are
determined by whether the content ends in a newline. -/
theorem skip_lines_comments (lines : List String) :
    ∀ (fnl fb : Bool) (lineno : Nat) (linebuff : String),
    (∀ l ∈ lines, l = "" ∨ starts_with l comment_mark = true) →
    (lines = [] →
      skip_lines ⟨lines, fnl, false, fb, false⟩ lineno linebuff =
        (⟨lines, fnl, true, true, false⟩, lineno + 1, "")) ∧
    (lines ≠ [] → fnl = true →
      skip_lines ⟨lines, fnl, false, fb, false⟩ lineno linebuff =
        (⟨[], fnl, true, true, false⟩, lineno + lines.length + 1, "")) ∧
    (lines ≠ [] → fnl = false →
      skip_lines ⟨lines, fnl, false, fb, false⟩ lineno linebuff =
        (⟨[], fnl, true, fb, false⟩, lineno + lines.length,
          lines.getLastD "")) := by
  induction lines with
  | nil =>
    intro fnl fb lineno linebuff _
    exact ⟨fun _ => skip_lines_empty fnl fb lineno linebuff, by simp, by simp⟩
  | cons l rest ih =>
    intro fnl fb lineno linebuff hcomm
    have hl0 : l = "" ∨ starts_with l comment_mark = true :=
      hcomm l (List.mem_cons_self l rest)
    have hskip : ¬(¬(l.isEmpty = true) ∧ ¬(starts_with l comment_mark = true)) := by
      rcases hl0 with h0 | h0
      · intro hx
        exact hx.1 (by rw [h0]; rfl)
      · intro hx
        exact hx.2 h0
    have hrest : ∀ x ∈ rest, x = "" ∨ starts_with x comment_mark = true :=
      fun x hx => hcomm x (List.mem_cons_of_mem l hx)
    refine ⟨by simp, ?_, ?_⟩
    · rintro _ rfl
      rw [skip_lines_cons]
      match rest with
      | [] =>
        have hget : getline ⟨[l], true, false, fb, false⟩ =
            (⟨[], true, false, fb, false⟩, l) := rfl
        rw [hget]
        rw [if_neg hskip]
        rw [skip_lines_empty]
        rfl
      | r :: rs =>
        have hget : getline ⟨l :: r :: rs, true, false, fb, false⟩ =
            (⟨r :: rs, true, false, fb, false⟩, l) := rfl
        rw [hget]
        rw [if_neg hskip]
        rw [(ih true fb (lineno + 1) l hrest).2.1 (by simp) rfl]
        simp only [Prod.mk.injEq, List.length_cons]
        refine ⟨trivial, by omega, trivial⟩
    · rintro _ rfl
      rw [skip_lines_cons]
      match rest with
      | [] =>
        have hget : getline ⟨[l], false, false, fb, false⟩ =
            (⟨[], false, true, fb, false⟩, l) := rfl
        rw [hget]
        rw [if_neg hskip]
        rw [skip_lines_eof]
        rfl
      | r :: rs =>
        have hget : getline ⟨l :: r :: rs, false, false, fb, false⟩ =
            (⟨r :: rs, false, false, fb, false⟩, l) := rfl
        rw [hget]
        rw [if_neg hskip]
        rw [(ih false fb (lineno + 1) l hrest).2.2 (by simp) rfl]
        simp only [Prod.mk.injEq, List.length_cons]
        refine ⟨trivial, by omega, ?_⟩
        exact (getLastD_ne_nil (r :: rs) "" l (by simp)).trans
          (show (r :: rs).getLastD l = (l :: r :: rs).getLastD "" from rfl)

/-- A nonempty list contains its `getLastD`. -/
theorem getLastD_mem (xs : List String) (d : String) (h : xs ≠ []) :
    xs.getLastD d ∈ xs := by
  match xs, h with
  | [x], _ => simp
  | x :: y :: ys, _ =>
    have := getLastD_mem (y :: ys) x (by simp)
    show (y :: ys).getLastD x ∈ x :: y :: ys
    exact List.mem_cons_of_mem x this

/-- C10: when the remaining content of a good input stream consists only of
empty lines and comment-prefixed lines, `parse_record` consumes them all,
returns without raising a parse error, and leaves the output record
unmodified; the line counter is incremented once per `getline` — one per
consumed line, plus one for the final empty read when the content ends in a
newline (or was already empty). -/
theorem parse_record_trailing_comments
    (lineParse : String → Except String cell_record)
    (lines : List String) (fnl fb : Bool) (lineno : Nat) (linebuff : String)
    (cell : cell_record)
    (hcomm : ∀ l ∈ lines, l = "" ∨ starts_with l comment_mark = true) :
    ∃ s' buf, parse_record lineParse ⟨lines, fnl, false, fb, false⟩
        lineno linebuff cell =
      .ok (s', lineno + lines.length +
        (if lines = [] ∨ fnl = true then 1 else 0), buf, cell) := by
  obtain ⟨h1, h2, h3⟩ := skip_lines_comments lines fnl fb lineno linebuff hcomm
  match lines, fnl, hcomm, h1, h2, h3 with
  | [], fnl, hcomm, h1, h2, h3 =>
    refine ⟨⟨[], fnl, true, true, false⟩, "", ?_⟩
    simp only [parse_record, h1 rfl]
    rw [if_neg (by simp)]
    rw [if_pos (by exact ⟨by simp, Or.inl (by decide)⟩)]
    simp
  | c :: cs, true, hcomm, h1, h2, h3 =>
    refine ⟨⟨[], true, true, true, false⟩, "", ?_⟩
    simp only [parse_record, h2 (by simp) rfl]
    rw [if_neg (by simp)]
    rw [if_pos (by exact ⟨by simp, Or.inl (by decide)⟩)]
    simp
  | c :: cs, false, hcomm, h1, h2, h3 =>
    refine ⟨⟨[], false, true, fb, false⟩, (c :: cs).getLastD "", ?_⟩
    have hlast : (c :: cs).getLastD "" = "" ∨
        starts_with ((c :: cs).getLastD "") comment_mark = true :=
      hcomm _ (getLastD_mem (c :: cs) "" (by simp))
    simp only [parse_record, h3 (by simp) rfl]
    rw [if_neg (by simp)]
    rw [if_pos ?_]
    · simp
    · refine ⟨by simp, ?_⟩
      rcases hlast with h0 | h0
      · exact Or.inl (by rw [h0]; rfl)
      · exact Or.inr h0

/-- Witness for C10: a stream holding one blank line and one comment line,
content ending in a newline; the record and the error-free result are
evaluated concretely. -/
theorem parse_record_trailing_comments_witness :
    ∃ s' buf, parse_record (fun _ => .error "x")
        ⟨["", "# comment"], true, false, false, false⟩ 5 "prev"
        ⟨1, 0, 0, 0, 0, 1, -1⟩ =
      .ok (s', 5 + (["", "# comment"] : List String).length +
        (if (["", "# comment"] : List String) = [] ∨ true = true then 1 else 0),
        buf, ⟨1, 0, 0, 0, 0, 1, -1⟩) :=
  parse_record_trailing_comments (fun _ => .error "x") ["", "# comment"]
    true false 5 "prev" ⟨1, 0, 0, 0, 0, 1, -1⟩ (by decide)

/-! ## `mc_cell_group` (`src/unnamed/part_002`)

The engine's collaborators — the time-ordered event queues
(`event_queue.hpp`), the event binner (`event_binner.hpp`) and the
lowered-cell integrator interface — are not under `src/` and are modelled
from the spec (§3, §4.3, §6).  Loops that the source drives by popping a
queue or by the integrator's step counter are given a fuel argument equal to
that bound, so the recursion is structural. -/

abbrev time_type := ℚ

structure cell_member where
  gid : Nat
  index : Nat
deriving DecidableEq, Repr, Inhabited

structure postsynaptic_spike_event where
  target : cell_member
  time : time_type
  weight : ℚ
deriving DecidableEq, Repr

structure sample_event where
  sampler_index : Nat
  time : time_type
deriving DecidableEq, Repr, Inhabited

structure crossing where
  index : Nat
  time : time_type
deriving DecidableEq, Repr

structure spike where
  source : cell_member
  time : time_type
deriving DecidableEq, Repr

/-- An event as passed to the integrator by `add_event`. -/
structure deliverable_event where
  time : time_type
  handle : Nat
  weight : ℚ
deriving DecidableEq, Repr

/-- Modelled from the spec: `event_queue` orders by delivery time with
arbitrary stable tie-breaking (§3); `pop_min` removes a first earliest
element of the backing list. -/
def pop_min {α : Type} (tm : α → time_type) : List α → Option (α × List α)
  | [] => none
  | a :: rest =>
    match pop_min tm rest with
    | none => some (a, [])
    | some (b, rest') =>
      if tm a ≤ tm b then some (a, rest) else some (b, a :: rest')

/-- `event_queue::pop_if_before(t)`: pop an earliest event when it is
strictly before `t`. -/
def pop_if_before {α : Type} (tm : α → time_type) (t : time_type)
    (q : List α) : Option (α × List α) :=
  match pop_min tm q with
  | none => none
  | some (a, q') => if tm a < t then some (a, q') else none

/-- `event_queue::time_if_before(t)`: the earliest queued time when it is
strictly before `t`. -/
def time_if_before {α : Type} (tm : α → time_type) (t : time_type)
    (q : List α) : Option time_type :=
  match pop_min tm q with
  | none => none
  | some (a, _) => if tm a < t then some (tm a) else none

inductive binning_kind
  | none
  | regular
deriving DecidableEq, Repr

/-- Modelled from the spec (§4.3): the event binner holds a policy and an
interval. -/
structure event_binner where
  policy : binning_kind
  bin_interval : time_type
deriving DecidableEq, Repr

/-- Modelled from the spec (§4.3): map a delivery time to a bin time that is
"never earlier than a floor"; the `regular` policy rounds down to the grid. -/
def event_binner.bin (b : event_binner) (_gid : Nat) (t t_min : time_type) :
    time_type :=
  let t_binned :=
    match b.policy with
    | .none => t
    | .regular =>
      if 0 < b.bin_interval then (⌊t / b.bin_interval⌋ : ℚ) * b.bin_interval
      else t
  max t_binned t_min

/-- Modelled from the spec (§6): the state visible through the lowered-cell
interface — per-cell times, the events received via `add_event`, the
threshold-crossing buffer (`get_spikes`/`clear_spikes`), probe values, and
the number of integration steps left in the window fixed by
`setup_integration`. -/
structure lowered_state where
  times : List time_type
  queued : List deliverable_event
  crossings : List crossing
  probes : List ℚ
  steps_remaining : Nat
deriving DecidableEq, Repr

/-- Modelled from the spec (§6): the numerical black box — `num_steps` is
the finite stepping schedule `setup_integration(tfinal, dt)` commits to, and
`step` is the opaque numeric effect of one `step_integration`. -/
structure lowered_model where
  num_steps : time_type → time_type → Nat
  step : lowered_state → lowered_state

/-- `min_time()`: earliest per-cell time. -/
def lmin_time (s : lowered_state) : time_type :=
  match s.times with
  | [] => 0
  | t :: rest => rest.foldl min t

/-- `max_time()`: latest per-cell time. -/
def lmax_time (s : lowered_state) : time_type :=
  match s.times with
  | [] => 0
  | t :: rest => rest.foldl max t

/-- `state_synchronized()`: all managed cells are at one time. -/
def state_synchronized (s : lowered_state) : Prop :=
  ∀ t ∈ s.times, ∀ u ∈ s.times, t = u

/-- `add_event(time, handle, weight)`. -/
def add_event (t : time_type) (h : Nat) (w : ℚ) (s : lowered_state) :
    lowered_state :=
  { s with queued := s.queued ++ [⟨t, h, w⟩] }

/-- `setup_integration(tfinal, dt)` fixes the stepping schedule. -/
def setup_integration (m : lowered_model) (tfinal dt : time_type)
    (s : lowered_state) : lowered_state :=
  { s with steps_remaining := m.num_steps tfinal dt }

/-- `step_integration()`: one opaque numeric step; the window's remaining
step count decreases, and `integration_complete()` is `steps_remaining = 0`. -/
def step_integration (m : lowered_model) (s : lowered_state) : lowered_state :=
  { m.step s with steps_remaining := s.steps_remaining - 1 }

/-- A sampler association (`sampler_association_map` entry): schedule,
callback identity and resolved probe ids; the schedule is modelled from the
spec as its list of sample instants (§4.4, §5: `events(t0, t1)` returns the
instants within `[t0, t1)`). -/
structure sampler_assoc where
  sched : List time_type
  fnid : Nat
  probe_ids : List cell_member
deriving DecidableEq, Repr, Inhabited

/-- The per-`advance` sampler table entry built in step 2 of `advance`. -/
structure sampler_entry where
  handle : Nat
  tag : Nat
  probe_id : cell_member
  fnid : Nat
deriving DecidableEq, Repr, Inhabited

/-- A `sample_record` delivered to a sampler callback. -/
structure sample_record where
  time : time_type
  value : ℚ
deriving DecidableEq, Repr

/-- One observed callback invocation: the callback (by identity) received
this probe id, tag and record.  `advance` returns the invocation trace. -/
structure trace_item where
  probe_id : cell_member
  tag : Nat
  fnid : Nat
  record : sample_record
deriving DecidableEq, Repr

/-- The `mc_cell_group` state used by `advance`:  spikes, pending event and
sample queues, binner, lowered cell, spike source table, sampler map, probe
map (probe id → handle and tag), target handle table with its partition, and
the gid → local index map. -/
structure group_state where
  spikes : List spike
  events : List postsynaptic_spike_event
  sample_events : List sample_event
  binner : event_binner
  lowered : lowered_state
  spike_sources : List cell_member
  sampler_assocs : List sampler_assoc
  probe_map : List (cell_member × Nat × Nat)
  target_handles : List Nat
  target_handle_divisions : List Nat
  gid_index : Nat → Nat

/-- `get_target_handle`: resolve a target id through the partition table. -/
def get_target_handle (g : group_state) (id : cell_member) : Nat :=
  g.target_handles.getD
    (g.target_handle_divisions.getD (g.gid_index id.gid) 0 + id.index) 0

/-- `probe_map_[p]` (an `unordered_map` access; absent keys give the
default-constructed pair, as `operator[]` would). -/
def probe_lookup : List (cell_member × Nat × Nat) → cell_member → Nat × Nat
  | [], _ => (0, 0)
  | (p, hv) :: rest, q => if q = p then hv else probe_lookup rest q

/-- `sched.events(t0, t1)`: the sample instants within `[t0, t1)` (spec
§4.5 step 2). -/
def schedule_events (sched : List time_type) (t0 t1 : time_type) :
    List time_type :=
  sched.filter (fun t => t0 ≤ t ∧ t < t1)

/-- The event-drain loop of `advance` (step 1): pop pending events strictly
before `tfinal` and hand them, binned and resolved, to the integrator.  The
fuel starts at the queue length, an upper bound on the number of pops. -/
def drain_go (bn : event_binner) (resolve : cell_member → Nat)
    (tfinal t_min : time_type) :
    Nat → List postsynaptic_spike_event → lowered_state →
    lowered_state × List postsynaptic_spike_event
  | fuel, q, low =>
    match pop_if_before postsynaptic_spike_event.time tfinal q with
    | none => (low, q)
    | some (ev, q') =>
      match fuel with
      | 0 => (low, q)
      | fuel + 1 =>
        drain_go bn resolve tfinal t_min fuel q'
          (add_event (bn.bin ev.target.gid ev.time t_min) (resolve ev.target)
            ev.weight low)

def drain_events (bn : event_binner) (resolve : cell_member → Nat)
    (tfinal t_min : time_type) (q : List postsynaptic_spike_event)
    (low : lowered_state) : lowered_state × List postsynaptic_spike_event :=
  drain_go bn resolve tfinal t_min q.length q low

/-- The inner loop of `advance` step 2 over one association's probe ids:
record a sampler table entry and one sample event per scheduled instant,
tagged with the entry's index. -/
def add_probes (a : sampler_assoc) (ts : List time_type)
    (pm : List (cell_member × Nat × Nat)) :
    List cell_member → List sampler_entry → List sample_event →
    List sampler_entry × List sample_event
  | [], samplers, evs => (samplers, evs)
  | p :: ps, samplers, evs =>
    let idx := samplers.length
    let hv := probe_lookup pm p
    add_probes a ts pm ps (samplers ++ [⟨hv.1, hv.2, p, a.fnid⟩])
      (evs ++ ts.map (fun t => ⟨idx, t⟩))

/-- `advance` step 2: build the sampler table and sample-event queue from
the live associations whose schedules have instants in `[tstart, tfinal)`. -/
def build_samplers (pm : List (cell_member × Nat × Nat))
    (t0 t1 : time_type) :
    List sampler_assoc → List sampler_entry → List sample_event →
    List sampler_entry × List sample_event
  | [], samplers, evs => (samplers, evs)
  | a :: rest, samplers, evs =>
    let ts := schedule_events a.sched t0 t1
    if ts.isEmpty then build_samplers pm t0 t1 rest samplers evs
    else
      let r := add_probes a ts pm a.probe_ids samplers evs
      build_samplers pm t0 t1 rest r.1 r.2

/-- The sample-drain loop inside the integration loop: pop sample events
before the group's max reached time; a sample for a cell that has not yet
reached the sample time is re-queued, otherwise the probe is read and the
callback invoked with `(cell_time, value)`.  Fuel bounds the pops by the
queue length. -/
def sample_drain (low : lowered_state) (gid_index : Nat → Nat)
    (samplers : List sampler_entry) (cell_max : time_type) :
    Nat → List sample_event → List sample_event → List trace_item →
    List sample_event × List sample_event × List trace_item
  | fuel, q, requeue, trace =>
    match pop_if_before sample_event.time cell_max q with
    | none => (q, requeue, trace)
    | some (mv, q') =>
      match fuel with
      | 0 => (q, requeue, trace)
      | fuel + 1 =>
        let s := samplers.getD mv.sampler_index default
        let cell_time := low.times.getD (gid_index s.probe_id.gid) 0
        if cell_time < mv.time then
          sample_drain low gid_index samplers cell_max fuel q'
            (requeue ++ [mv]) trace
        else
          let value := low.probes.getD s.handle 0
          sample_drain low gid_index samplers cell_max fuel q' requeue
            (trace ++ [⟨s.probe_id, s.tag, s.fnid, ⟨cell_time, value⟩⟩])

/-- The integration loop of `advance` (step 3): while the integrator is not
complete, drain due samples (only while a pending sample before `tfinal`
exists, as in the source) and take one integration step.  The fuel mirrors
`steps_remaining`, which `step_integration` decrements. -/
def integ_go (m : lowered_model) (gid_index : Nat → Nat)
    (samplers : List sampler_entry) (tfinal : time_type) :
    Nat → lowered_state → List sample_event → Option time_type →
    List trace_item → lowered_state × List sample_event × List trace_item
  | fuel, low, sq, fst, tr =>
    if low.steps_remaining = 0 then (low, sq, tr)
    else
      match fuel with
      | 0 => (low, sq, tr)
      | fuel + 1 =>
        match fst with
        | none =>
          integ_go m gid_index samplers tfinal fuel (step_integration m low)
            sq none tr
        | some _ =>
          let cmax := lmax_time low
          let r := sample_drain low gid_index samplers cmax sq.length sq [] tr
          let sq' := r.1 ++ r.2.1
          let fst' := time_if_before sample_event.time tfinal sq'
          integ_go m gid_index samplers tfinal fuel (step_integration m low)
            sq' fst' r.2.2

def integration_loop (m : lowered_model) (gid_index : Nat → Nat)
    (samplers : List sampler_entry) (tfinal : time_type)
    (low : lowered_state) (sq : List sample_event) (fst : Option time_type)
    (tr : List trace_item) :
    lowered_state × List sample_event × List trace_item :=
  integ_go m gid_index samplers tfinal low.steps_remaining low sq fst tr

/-- The drain phase of `advance`, with the bin floor `ev_min_time` taken as
`lowered_.max_time()` at entry (the source's comment: "but we're
synchronized here"). -/
def drained (g : group_state) (tfinal : time_type) :
    lowered_state × List postsynaptic_spike_event :=
  drain_events g.binner (get_target_handle g) tfinal (lmax_time g.lowered)
    g.events g.lowered

/-- Steps 1–3 of `advance`: drain, set up integration, build samplers, run
the integration loop. -/
def advance_loop (m : lowered_model) (g : group_state) (tfinal dt : time_type) :
    lowered_state × List sample_event × List trace_item :=
  let tstart := lmin_time g.lowered
  let low2 := setup_integration m tfinal dt (drained g tfinal).1
  let r := build_samplers g.probe_map tstart tfinal g.sampler_assocs [] []
  let sq0 := g.sample_events ++ r.2
  integration_loop m g.gid_index r.1 tfinal low2 sq0
    (time_if_before sample_event.time tfinal sq0) []

/-- Step 4 of `advance`: a threshold crossing becomes a spike with the
global source id `spike_sources_[c.index]`. -/
def global_spike (g : group_state) (c : crossing) : spike :=
  ⟨g.spike_sources.getD c.index ⟨0, 0⟩, c.time⟩

/-- `mc_cell_group::advance(tfinal, dt)`: drain pending events, integrate
with sampling, then harvest the integrator's crossings into the spike list
and clear its crossing buffer.  The second component is the trace of sampler
callback invocations. -/
def advance (m : lowered_model) (g : group_state) (tfinal dt : time_type) :
    group_state × List trace_item :=
  let qrest := (drained g tfinal).2
  let r := advance_loop m g tfinal dt
  let new_spikes := r.1.crossings.map (global_spike g)
  ({ g with
      spikes := g.spikes ++ new_spikes,
      events := qrest,
      sample_events := r.2.1,
      lowered := { r.1 with crossings := [] } }, r.2.2)


/-- A trivial integrator model for the concrete engine witnesses. -/
def c2_model : lowered_model := ⟨fun _ _ => 1, id⟩

/-- Concrete group for the C2 witness: two pending events at t = 5 and
t = 15, one cell at t = 0. -/
def c2_group : group_state :=
  { spikes := [], events := [⟨⟨0, 0⟩, 5, 1⟩, ⟨⟨0, 0⟩, 15, 1⟩],
    sample_events := [], binner := ⟨.none, 0⟩,
    lowered := ⟨[0], [], [], [], 0⟩, spike_sources := [⟨0, 0⟩],
    sampler_assocs := [], probe_map := [], target_handles := [0],
    target_handle_divisions := [0, 1], gid_index := fun _ => 0 }

/-! ### Queue lemmas -/

theorem pop_min_nil_iff {α : Type} (tm : α → time_type) (q : List α) :
    pop_min tm q = none ↔ q = [] := by
  match q with
  | [] => simp [pop_min]
  | a :: rest =>
    constructor
    · intro h
      rcases hr : pop_min tm rest with _ | ⟨b, rest'⟩ <;>
        simp only [pop_min, hr] at h
      · simp at h
      · split_ifs at h
    · intro h
      simp at h

/-- The popped element is a first minimum: the queue splits around it and its
time bounds every queued time. -/
theorem pop_min_spec {α : Type} (tm : α → time_type) :
    ∀ (q : List α) (a : α) (q' : List α), pop_min tm q = some (a, q') →
      (∃ l₁ l₂, q = l₁ ++ a :: l₂ ∧ q' = l₁ ++ l₂) ∧ ∀ x ∈ q, tm a ≤ tm x := by
  intro q
  induction q with
  | nil => intro a q' h; simp [pop_min] at h
  | cons b rest ih =>
    intro a q' h
    rcases hr : pop_min tm rest with _ | ⟨c, rest'⟩ <;>
      simp only [pop_min, hr] at h
    · have hrnil : rest = [] := (pop_min_nil_iff tm rest).mp hr
      obtain ⟨rfl, rfl⟩ := h
      subst hrnil
      exact ⟨⟨[], [], rfl, rfl⟩, by simp⟩
    · obtain ⟨⟨l₁, l₂, hq, hq'⟩, hmin⟩ := ih c rest' hr
      split_ifs at h with hle <;>
        simp only [Option.some.injEq, Prod.mk.injEq] at h <;>
        obtain ⟨rfl, rfl⟩ := h
      · refine ⟨⟨[], rest, rfl, rfl⟩, ?_⟩
        intro x hx
        rcases List.mem_cons.mp hx with rfl | hx
        · exact le_refl _
        · exact le_trans hle (hmin x hx)
      · refine ⟨⟨b :: l₁, l₂, by rw [hq]; rfl, by rw [hq']; rfl⟩, ?_⟩
        intro x hx
        rcases List.mem_cons.mp hx with rfl | hx
        · exact le_of_lt (lt_of_not_le hle)
        · exact hmin x hx

theorem pop_if_before_none {α : Type} (tm : α → time_type) (t : time_type)
    (q : List α) (h : pop_if_before tm t q = none) :
    ∀ x ∈ q, ¬ tm x < t := by
  intro x hx
  rcases hp : pop_min tm q with _ | ⟨a, q'⟩ <;>
    simp only [pop_if_before, hp] at h
  · rw [pop_min_nil_iff tm q] at hp
    subst hp
    simp at hx
  · by_cases hlt : tm a < t
    · rw [if_pos hlt] at h
      simp at h
    · have := (pop_min_spec tm q a q' hp).2 x hx
      intro hxlt
      exact hlt (lt_of_le_of_lt this hxlt)

theorem pop_if_before_some {α : Type} (tm : α → time_type) (t : time_type)
    (q : List α) (a : α) (q' : List α)
    (h : pop_if_before tm t q = some (a, q')) :
    tm a < t ∧ ∃ l₁ l₂, q = l₁ ++ a :: l₂ ∧ q' = l₁ ++ l₂ := by
  rcases hp : pop_min tm q with _ | ⟨b, q₀⟩ <;>
    simp only [pop_if_before, hp] at h
  · simp at h
  · by_cases hlt : tm b < t
    · rw [if_pos hlt] at h
      simp only [Option.some.injEq, Prod.mk.injEq] at h
      obtain ⟨rfl, rfl⟩ := h
      exact ⟨hlt, (pop_min_spec tm q b q₀ hp).1⟩
    · rw [if_neg hlt] at h
      simp at h

/-! ### C2: event partition at `tfinal` -/

theorem drain_go_none (bn : event_binner) (resolve : cell_member → Nat)
    (tfinal t_min : time_type) (fuel : Nat)
    (q : List postsynaptic_spike_event) (low : lowered_state)
    (hp : pop_if_before postsynaptic_spike_event.time tfinal q = none) :
    drain_go bn resolve tfinal t_min fuel q low = (low, q) := by
  rw [drain_go.eq_def]
  simp only [hp]

theorem drain_go_succ (bn : event_binner) (resolve : cell_member → Nat)
    (tfinal t_min : time_type) (fuel : Nat)
    (q : List postsynaptic_spike_event) (low : lowered_state)
    (ev : postsynaptic_spike_event) (q' : List postsynaptic_spike_event)
    (hp : pop_if_before postsynaptic_spike_event.time tfinal q =
      some (ev, q')) :
    drain_go bn resolve tfinal t_min (fuel + 1) q low =
      drain_go bn resolve tfinal t_min fuel q'
        (add_event (bn.bin ev.target.gid ev.time t_min) (resolve ev.target)
          ev.weight low) := by
  rw [drain_go.eq_def]
  simp only [hp]

/-- The drain loop pops exactly the events strictly before `tfinal` (in some
order), appends their binned forms to the integrator's queue, and leaves
exactly the events at or after `tfinal` pending. -/
theorem drain_go_spec (bn : event_binner) (resolve : cell_member → Nat)
    (tfinal t_min : time_type) :
    ∀ (fuel : Nat) (q : List postsynaptic_spike_event) (low : lowered_state),
      q.length ≤ fuel →
      ∃ popped : List postsynaptic_spike_event,
        popped.Perm (q.filter (fun e => e.time < tfinal)) ∧
        drain_go bn resolve tfinal t_min fuel q low =
          ({ low with queued := low.queued ++ popped.map (fun e =>
              (⟨bn.bin e.target.gid e.time t_min, resolve e.target,
                e.weight⟩ : deliverable_event)) },
            q.filter (fun e => ¬ e.time < tfinal)) := by
  intro fuel
  induction fuel with
  | zero =>
    intro q low hlen
    have hq : q = [] := List.length_eq_zero.mp (Nat.le_zero.mp hlen)
    subst hq
    exact ⟨[], by simp, by simp [drain_go, pop_if_before, pop_min]⟩
  | succ fuel ih =>
    intro q low hlen
    rcases hp : pop_if_before postsynaptic_spike_event.time tfinal q with
      _ | ⟨ev, q'⟩
    · refine ⟨[], ?_, ?_⟩
      · have := pop_if_before_none _ _ _ hp
        rw [List.filter_eq_nil.mpr (by intro e he; simpa using this e he)]
      · rw [drain_go_none bn resolve tfinal t_min (fuel + 1) q low hp]
        have := pop_if_before_none _ _ _ hp
        rw [List.filter_eq_self.mpr (by intro e he; simpa using this e he)]
        simp
    · obtain ⟨hevlt, l₁, l₂, hq, hq'⟩ := pop_if_before_some _ _ _ _ _ hp
      have hlen' : q'.length ≤ fuel := by
        subst hq hq'
        simp only [List.length_append, List.length_cons] at hlen ⊢
        omega
      obtain ⟨popped', hperm', heq'⟩ :=
        ih q' (add_event (bn.bin ev.target.gid ev.time t_min)
          (resolve ev.target) ev.weight low) hlen'
      refine ⟨ev :: popped', ?_, ?_⟩
      · subst hq hq'
        rw [show ((l₁ ++ ev :: l₂).filter (fun e => e.time < tfinal)) =
            l₁.filter (fun e => e.time < tfinal) ++ ev ::
              l₂.filter (fun e => e.time < tfinal) from by
          simp [List.filter_append, hevlt]]
        rw [List.filter_append] at hperm'
        exact (hperm'.cons ev).trans List.perm_middle.symm
      · rw [drain_go_succ bn resolve tfinal t_min fuel q low ev q' hp, heq']
        have hfilter : q.filter (fun e => ¬ e.time < tfinal) =
            q'.filter (fun e => ¬ e.time < tfinal) := by
          subst hq hq'
          simp [List.filter_append, hevlt]
        rw [hfilter]
        simp only [add_event, List.map_cons, List.append_assoc,
          List.singleton_append]

/-- C2: `advance(tfinal, dt)` pops every pending postsynaptic event with
delivery time strictly before `tfinal` and passes each one (binned, with its
resolved handle and weight) to the integrator's queue; every event with
delivery time at or after `tfinal` is still pending after the call, and a
later advance to `tfinal2 ≥ tfinal` consumes exactly those before
`tfinal2`. -/
theorem advance_event_partition (m : lowered_model) (g : group_state)
    (tfinal dt tfinal2 dt2 : time_type) (hle : tfinal ≤ tfinal2) :
    (∃ popped : List postsynaptic_spike_event,
      popped.Perm (g.events.filter (fun e => e.time < tfinal)) ∧
      (drained g tfinal).1.queued = g.lowered.queued ++ popped.map (fun e =>
        (⟨g.binner.bin e.target.gid e.time (lmax_time g.lowered),
          get_target_handle g e.target, e.weight⟩ : deliverable_event))) ∧
    (advance m g tfinal dt).1.events =
      g.events.filter (fun e => ¬ e.time < tfinal) ∧
    (advance m (advance m g tfinal dt).1 tfinal2 dt2).1.events =
      g.events.filter (fun e => ¬ e.time < tfinal2) := by
  obtain ⟨popped, hperm, heq⟩ := drain_go_spec g.binner (get_target_handle g)
    tfinal (lmax_time g.lowered) g.events.length g.events g.lowered (le_refl _)
  have hdr : drained g tfinal =
      ({ g.lowered with queued := g.lowered.queued ++ popped.map (fun e =>
          (⟨g.binner.bin e.target.gid e.time (lmax_time g.lowered),
            get_target_handle g e.target, e.weight⟩ : deliverable_event)) },
        g.events.filter (fun e => ¬ e.time < tfinal)) := heq
  refine ⟨⟨popped, hperm, by rw [hdr]⟩, ?_, ?_⟩
  · show (drained g tfinal).2 = _
    rw [hdr]
  · set g' := (advance m g tfinal dt).1 with hg'
    have hg'ev : g'.events = g.events.filter (fun e => ¬ e.time < tfinal) := by
      rw [hg']
      show (drained g tfinal).2 = _
      rw [hdr]
    obtain ⟨popped2, hperm2, heq2⟩ := drain_go_spec g'.binner
      (get_target_handle g') tfinal2 (lmax_time g'.lowered) g'.events.length
      g'.events g'.lowered (le_refl _)
    have hdr2 : drained g' tfinal2 =
        ({ g'.lowered with queued := g'.lowered.queued ++ popped2.map (fun e =>
            (⟨g'.binner.bin e.target.gid e.time (lmax_time g'.lowered),
              get_target_handle g' e.target, e.weight⟩ : deliverable_event)) },
          g'.events.filter (fun e => ¬ e.time < tfinal2)) := heq2
    have hsecond : (advance m g' tfinal2 dt2).1.events =
        g'.events.filter (fun e => ¬ e.time < tfinal2) := by
      show (drained g' tfinal2).2 = _
      rw [hdr2]
    rw [hsecond, hg'ev, List.filter_filter]
    refine List.filter_congr ?_
    intro e _
    by_cases h2 : e.time < tfinal2
    · by_cases h1 : e.time < tfinal <;> simp [h1, h2]
    · have h1 : ¬ e.time < tfinal := fun hx => h2 (lt_of_lt_of_le hx hle)
      simp [h1, h2]

/-- Witness for C2 on a two-event queue: one event before `tfinal = 10`, one
after; the later advance to 20 consumes the second. -/
theorem advance_event_partition_witness :
    (∃ popped : List postsynaptic_spike_event,
      popped.Perm (c2_group.events.filter (fun e => e.time < 10)) ∧
      (drained c2_group 10).1.queued = c2_group.lowered.queued ++
        popped.map (fun e =>
          (⟨c2_group.binner.bin e.target.gid e.time
              (lmax_time c2_group.lowered),
            get_target_handle c2_group e.target, e.weight⟩ :
            deliverable_event))) ∧
    (advance c2_model c2_group 10 1).1.events =
      c2_group.events.filter (fun e => ¬ e.time < 10) ∧
    (advance c2_model (advance c2_model c2_group 10 1).1 20 1).1.events =
      c2_group.events.filter (fun e => ¬ e.time < 20) :=
  advance_event_partition c2_model c2_group 10 1 20 1 (by norm_num)

/-! ### C3: bin times are floored at the group's minimum unintegrated time -/

theorem foldl_min_const (l : List time_type) :
    ∀ t, (∀ x ∈ l, x = t) → l.foldl min t = t := by
  induction l with
  | nil => intro t _; rfl
  | cons a rest ih =>
    intro t h
    have ha : min t a = t := by
      rw [h a (List.mem_cons_self a rest), min_self]
    rw [List.foldl_cons, ha]
    exact ih t (fun x hx => h x (List.mem_cons_of_mem a hx))

theorem foldl_max_const (l : List time_type) :
    ∀ t, (∀ x ∈ l, x = t) → l.foldl max t = t := by
  induction l with
  | nil => intro t _; rfl
  | cons a rest ih =>
    intro t h
    have ha : max t a = t := by
      rw [h a (List.mem_cons_self a rest), max_self]
    rw [List.foldl_cons, ha]
    exact ih t (fun x hx => h x (List.mem_cons_of_mem a hx))

/-- In a synchronized state the earliest and latest per-cell times agree
(the source's comment on `ev_min_time`: "but we're synchronized here"). -/
theorem sync_lmin_eq_lmax (s : lowered_state) (h : state_synchronized s) :
    lmin_time s = lmax_time s := by
  rcases hs : s.times with _ | ⟨t, rest⟩ <;>
    simp only [lmin_time, lmax_time, hs]
  have hall : ∀ x ∈ rest, x = t := fun x hx =>
    h x (by rw [hs]; exact List.mem_cons_of_mem _ hx) t
      (by rw [hs]; exact List.mem_cons_self _ _)
  rw [foldl_min_const rest t hall, foldl_max_const rest t hall]

/-- The integrator queue after the drain: the old queue followed by the
popped events, binned with floor `lowered_.max_time()` and resolved. -/
theorem drained_queued (g : group_state) (tfinal : time_type) :
    ∃ popped : List postsynaptic_spike_event,
      popped.Perm (g.events.filter (fun e => e.time < tfinal)) ∧
      (drained g tfinal).1.queued = g.lowered.queued ++ popped.map (fun e =>
        (⟨g.binner.bin e.target.gid e.time (lmax_time g.lowered),
          get_target_handle g e.target, e.weight⟩ : deliverable_event)) := by
  obtain ⟨popped, hperm, heq⟩ := drain_go_spec g.binner (get_target_handle g)
    tfinal (lmax_time g.lowered) g.events.length g.events g.lowered (le_refl _)
  refine ⟨popped, hperm, ?_⟩
  rw [show drained g tfinal = _ from heq]

/-- Concrete group for the C3 witness: two synchronized cells at t = 0 and a
pending event with a delivery time in the past. -/
def c3_group : group_state :=
  { spikes := [], events := [⟨⟨0, 0⟩, -5, 1⟩], sample_events := [],
    binner := ⟨.none, 0⟩, lowered := ⟨[0, 0], [], [], [], 0⟩,
    spike_sources := [⟨0, 0⟩], sampler_assocs := [], probe_map := [],
    target_handles := [0], target_handle_divisions := [0, 1],
    gid_index := fun _ => 0 }

/-- C3: when the group starts synchronized, every event handed to the
integrator by `advance`'s drain phase carries a bin time at least the
minimum unintegrated time across the group's cells; pre-existing queue
entries are untouched. -/
theorem advance_bin_floor (g : group_state) (tfinal : time_type)
    (hsync : state_synchronized g.lowered) :
    ∀ d ∈ (drained g tfinal).1.queued,
      d ∈ g.lowered.queued ∨ lmin_time g.lowered ≤ d.time := by
  obtain ⟨popped, hperm, heq⟩ := drained_queued g tfinal
  intro d hd
  rw [heq] at hd
  rcases List.mem_append.mp hd with h1 | h2
  · exact Or.inl h1
  · right
    obtain ⟨e, he, rfl⟩ := List.mem_map.mp h2
    show lmin_time g.lowered ≤
      g.binner.bin e.target.gid e.time (lmax_time g.lowered)
    rw [sync_lmin_eq_lmax g.lowered hsync]
    simp only [event_binner.bin]
    exact le_max_right _ _

/-- Witness for C3: the event at t = −5 enters the queue binned to 0, the
synchronized cells' common time. -/
theorem advance_bin_floor_witness :
    state_synchronized c3_group.lowered ∧
    ∀ d ∈ (drained c3_group 10).1.queued,
      d ∈ c3_group.lowered.queued ∨ lmin_time c3_group.lowered ≤ d.time :=
  ⟨fun t ht u hu => by fin_cases ht <;> fin_cases hu <;> rfl,
   advance_bin_floor c3_group 10
     (fun t ht u hu => by fin_cases ht <;> fin_cases hu <;> rfl)⟩

/-! ### C4: spike harvest and crossing-buffer clear -/

/-- Concrete group for the C4 witness: the integrator already holds one
threshold crossing at t = 3. -/
def c4_group : group_state :=
  { spikes := [⟨⟨0, 0⟩, 1⟩], events := [], sample_events := [],
    binner := ⟨.none, 0⟩, lowered := ⟨[0], [], [⟨0, 3⟩], [], 0⟩,
    spike_sources := [⟨0, 0⟩], sampler_assocs := [], probe_map := [],
    target_handles := [0], target_handle_divisions := [0, 1],
    gid_index := fun _ => 0 }

/-- C4: `advance` appends every crossing reported by the integrator for this
window to the spike list, translated through `spike_sources_`, then clears
the integrator's crossing buffer; a later `advance` whose window reports no
crossing leaves the spike list unchanged. -/
theorem advance_spike_harvest (m : lowered_model) (g : group_state)
    (tfinal dt : time_type) :
    (advance m g tfinal dt).1.spikes = g.spikes ++
      (advance_loop m g tfinal dt).1.crossings.map (global_spike g) ∧
    (advance m g tfinal dt).1.lowered.crossings = [] ∧
    ∀ tfinal2 dt2 : time_type,
      (advance_loop m (advance m g tfinal dt).1 tfinal2 dt2).1.crossings =
        [] →
      (advance m (advance m g tfinal dt).1 tfinal2 dt2).1.spikes =
        (advance m g tfinal dt).1.spikes := by
  refine ⟨rfl, rfl, ?_⟩
  intro tf2 dt2 h
  show (advance m g tfinal dt).1.spikes ++
      (advance_loop m (advance m g tfinal dt).1 tf2 dt2).1.crossings.map
        (global_spike (advance m g tfinal dt).1) =
    (advance m g tfinal dt).1.spikes
  rw [h]
  simp

/-- Witness for C4: the pre-existing crossing at t = 3 is harvested once;
the second `advance` reports no crossing and adds no spike. -/
theorem advance_spike_harvest_witness :
    (advance_loop c2_model (advance c2_model c4_group 10 1).1 20 1).1.crossings
      = [] ∧
    (advance c2_model (advance c2_model c4_group 10 1).1 20 1).1.spikes =
      (advance c2_model c4_group 10 1).1.spikes :=
  ⟨by decide,
   (advance_spike_harvest c2_model c4_group 10 1).2.2 20 1 (by decide)⟩

/-! ### C9: delivered sample records carry the cell's reached time -/

theorem sample_drain_stop (low : lowered_state) (gi : Nat → Nat)
    (samplers : List sampler_entry) (cmax : time_type) (fuel : Nat)
    (q requeue : List sample_event) (trace : List trace_item)
    (hp : pop_if_before sample_event.time cmax q = none) :
    sample_drain low gi samplers cmax fuel q requeue trace =
      (q, requeue, trace) := by
  rw [sample_drain.eq_def]
  simp only [hp]

theorem sample_drain_zero (low : lowered_state) (gi : Nat → Nat)
    (samplers : List sampler_entry) (cmax : time_type)
    (q requeue : List sample_event) (trace : List trace_item) :
    sample_drain low gi samplers cmax 0 q requeue trace =
      (q, requeue, trace) := by
  rw [sample_drain.eq_def]
  rcases hp : pop_if_before sample_event.time cmax q with _ | ⟨mv, q'⟩ <;>
    simp only [hp]

theorem sample_drain_step (low : lowered_state) (gi : Nat → Nat)
    (samplers : List sampler_entry) (cmax : time_type) (fuel : Nat)
    (q requeue : List sample_event) (trace : List trace_item)
    (mv : sample_event) (q' : List sample_event)
    (hp : pop_if_before sample_event.time cmax q = some (mv, q')) :
    sample_drain low gi samplers cmax (fuel + 1) q requeue trace =
      (if low.times.getD
          (gi (samplers.getD mv.sampler_index default).probe_id.gid) 0 <
            mv.time then
        sample_drain low gi samplers cmax fuel q' (requeue ++ [mv]) trace
      else
        sample_drain low gi samplers cmax fuel q' requeue (trace ++
          [⟨(samplers.getD mv.sampler_index default).probe_id,
            (samplers.getD mv.sampler_index default).tag,
            (samplers.getD mv.sampler_index default).fnid,
            ⟨low.times.getD
              (gi (samplers.getD mv.sampler_index default).probe_id.gid) 0,
              low.probes.getD
                (samplers.getD mv.sampler_index default).handle 0⟩⟩])) := by
  rw [sample_drain.eq_def]
  simp only [hp]

/-- Every item the sample-drain loop adds to the callback trace records the
cell's currently reached time and current probe value for some popped sample
event, and that reached time is at or after the event's scheduled instant. -/
theorem sample_drain_records (low : lowered_state) (gi : Nat → Nat)
    (samplers : List sampler_entry) (cmax : time_type) :
    ∀ (fuel : Nat) (q requeue : List sample_event) (trace : List trace_item),
      ∀ it ∈ (sample_drain low gi samplers cmax fuel q requeue trace).2.2,
        it ∈ trace ∨ ∃ mv ∈ q,
          it.record.time = low.times.getD
            (gi (samplers.getD mv.sampler_index default).probe_id.gid) 0 ∧
          it.record.value = low.probes.getD
            (samplers.getD mv.sampler_index default).handle 0 ∧
          mv.time ≤ it.record.time := by
  intro fuel
  induction fuel with
  | zero =>
    intro q requeue trace it hit
    rw [sample_drain_zero] at hit
    exact Or.inl hit
  | succ fuel ih =>
    intro q requeue trace it hit
    rcases hp : pop_if_before sample_event.time cmax q with _ | ⟨mv, q'⟩
    · rw [sample_drain_stop low gi samplers cmax (fuel + 1) q requeue trace
        hp] at hit
      exact Or.inl hit
    · obtain ⟨hlt, l₁, l₂, hq, hq'⟩ := pop_if_before_some _ _ _ _ _ hp
      have hmvq : mv ∈ q := by
        rw [hq]
        exact List.mem_append_right l₁ (List.mem_cons_self mv l₂)
      have hsub : ∀ x ∈ q', x ∈ q := by
        intro x hx
        rw [hq'] at hx
        rw [hq]
        rcases List.mem_append.mp hx with h1 | h2
        · exact List.mem_append_left _ h1
        · exact List.mem_append_right _ (List.mem_cons_of_mem mv h2)
      rw [sample_drain_step low gi samplers cmax fuel q requeue trace mv q'
        hp] at hit
      split_ifs at hit with hct
      · rcases ih q' (requeue ++ [mv]) trace it hit with h | ⟨mv', hmv', hrec⟩
        · exact Or.inl h
        · exact Or.inr ⟨mv', hsub mv' hmv', hrec⟩
      · rcases ih q' requeue _ it hit with h | ⟨mv', hmv', hrec⟩
        · rcases List.mem_append.mp h with h1 | h2
          · exact Or.inl h1
          · rcases List.mem_singleton.mp h2 with rfl
            refine Or.inr ⟨mv, hmvq, rfl, rfl, ?_⟩
            exact le_of_not_lt hct
        · exact Or.inr ⟨mv', hsub mv' hmv', hrec⟩

/-- An integrator model for the C9 witness: a window takes two steps, and
each step brings every cell to t = 2. -/
def c9_model : lowered_model :=
  ⟨fun _ _ => 2, fun s => { s with times := s.times.map (fun _ => 2) }⟩

/-- Concrete group for the C9 witness: one cell at t = 0, a probe reading
42, and a sampler scheduled at t = 1, between the cell's times 0 and 2. -/
def c9_group : group_state :=
  { spikes := [], events := [], sample_events := [],
    binner := ⟨.none, 0⟩, lowered := ⟨[0], [], [], [42], 0⟩,
    spike_sources := [⟨0, 0⟩],
    sampler_assocs := [⟨[1], 0, [⟨0, 0⟩]⟩],
    probe_map := [(⟨0, 0⟩, 0, 0)],
    target_handles := [0], target_handle_divisions := [0, 1],
    gid_index := fun _ => 0 }

/-- C9: a record delivered to a sampler callback carries the sampled cell's
currently reached integration time (and current probe value), which is at or
after — not equal to — the scheduled sample instant; concretely, a sample
scheduled at t = 1 on a cell stepping 0 → 2 is delivered with record time 2,
strictly later than requested. -/
theorem advance_sample_record_time :
    (∀ (low : lowered_state) (gi : Nat → Nat)
        (samplers : List sampler_entry) (cmax : time_type) (fuel : Nat)
        (q requeue : List sample_event) (trace : List trace_item),
      ∀ it ∈ (sample_drain low gi samplers cmax fuel q requeue trace).2.2,
        it ∈ trace ∨ ∃ mv ∈ q,
          it.record.time = low.times.getD
            (gi (samplers.getD mv.sampler_index default).probe_id.gid) 0 ∧
          it.record.value = low.probes.getD
            (samplers.getD mv.sampler_index default).handle 0 ∧
          mv.time ≤ it.record.time) ∧
    (advance c9_model c9_group 10 1).2 =
      [⟨⟨0, 0⟩, 0, 0, ⟨2, 42⟩⟩] ∧
    schedule_events (c9_group.sampler_assocs.getD 0 default).sched 0 10 =
      [1] ∧
    (1 : time_type) < 2 :=
  ⟨sample_drain_records, by decide, by decide, by norm_num⟩

/-- Witness for C9's universally quantified part at a concrete drain: a cell
at t = 5 delivers a sample scheduled for t = 3 with record time 5. -/
theorem advance_sample_record_time_witness :
    ((⟨⟨0, 0⟩, 0, 0, ⟨5, 42⟩⟩ : trace_item) ∈
      (sample_drain ⟨[5], [], [], [42], 0⟩ (fun _ => 0)
        [⟨0, 0, ⟨0, 0⟩, 0⟩] 6 1 [⟨0, 3⟩] [] []).2.2) ∧
    ((⟨⟨0, 0⟩, 0, 0, ⟨5, 42⟩⟩ : trace_item) ∈ ([] : List trace_item) ∨
      ∃ mv ∈ [(⟨0, 3⟩ : sample_event)],
        (⟨⟨0, 0⟩, 0, 0, ⟨5, 42⟩⟩ : trace_item).record.time =
          (⟨[5], [], [], [42], 0⟩ : lowered_state).times.getD
            ((fun _ => 0)
              (([(⟨0, 0, ⟨0, 0⟩, 0⟩ : sampler_entry)].getD mv.sampler_index
                default).probe_id.gid)) 0 ∧
        (⟨⟨0, 0⟩, 0, 0, ⟨5, 42⟩⟩ : trace_item).record.value =
          (⟨[5], [], [], [42], 0⟩ : lowered_state).probes.getD
            (([(⟨0, 0, ⟨0, 0⟩, 0⟩ : sampler_entry)].getD mv.sampler_index
              default).handle) 0 ∧
        mv.time ≤ (⟨⟨0, 0⟩, 0, 0, ⟨5, 42⟩⟩ : trace_item).record.time) :=
  ⟨by decide,
   advance_sample_record_time.1 ⟨[5], [], [], [42], 0⟩ (fun _ => 0)
     [⟨0, 0, ⟨0, 0⟩, 0⟩] 6 1 [⟨0, 3⟩] [] [] ⟨⟨0, 0⟩, 0, 0, ⟨5, 42⟩⟩
     (by decide)⟩

end NestMc
